import Mathlib

/-!
Shallow embedding of the wall-collision-merging pass of `spawn_wall_collision`
(src/systems.rs) from the UnfairAdvantage repository, together with proofs of
the specified properties of that pass.

Grid coordinates are pairs of integers (the Rust code uses `i32`; the grids are
tiny, so plain `Int` is a faithful model).  The per-level wall set is a
`Finset (Int × Int)` modelling the `HashSet<GridCoords>`.  The `HashMap`s keyed
by `Plate` are modelled as association lists with the single-binding-per-key
discipline of a hash map (insert overwrites, remove deletes the binding).
Output order of `HashMap::values` is unspecified in Rust, so all stated
properties are about membership, pairwise relations and duplicate-freeness of
the produced lists, never about their order.
-/

namespace UnfairCollision

/-- Model of the local struct `Plate` of `spawn_wall_collision`: a wide wall
that is one tile tall, as an inclusive column interval. -/
@[ext]
structure Plate where
  left : Int
  right : Int
deriving DecidableEq

/-- Model of bevy `Rect<i32>` as used for the merged wall rectangles. -/
@[ext]
structure Rect where
  left : Int
  right : Int
  top : Int
  bottom : Int
deriving DecidableEq

/-- The list `[a, a+1, ..., a+n-1]` of integers. -/
def intsFrom (a : Int) : Nat → List Int
  | 0 => []
  | n + 1 => a :: intsFrom (a + 1) n

/-- Model of the Rust iterator `0..n` over `i32`: empty when `n ≤ 0`. -/
def intRange (n : Int) : List Int := intsFrom 0 n.toNat

/-- One step of the column scan of the row-plate stage, for row `y`:
the body of `for x in 0..width + 1 { match (plate_start, contains) ... }`.
The state is the pair `(plate_start, row_plates)`. -/
def rowStep (walls : Finset (Int × Int)) (y : Int)
    (st : Option Int × List Plate) (x : Int) : Option Int × List Plate :=
  if (x, y) ∈ walls then
    match st.1 with
    | none => (some x, st.2)
    | some _ => st
  else
    match st.1 with
    | some s => (none, st.2 ++ [{ left := s, right := x - 1 }])
    | none => st

/-- The plates of row `y`: the scan over columns `0..width+1` (one sentinel
column past the last real column) starting from no plate in progress. -/
def rowPlates (walls : Finset (Int × Int)) (width y : Int) : List Plate :=
  ((intRange (width + 1)).foldl (rowStep walls y) (none, [])).2

/-- The `plate_stack`: one plate list per row `y` in `0..height`. -/
def plateStack (walls : Finset (Int × Int)) (width height : Int) : List (List Plate) :=
  (intRange height).map (fun y => rowPlates walls width y)

/-- Lookup in the association-list model of `HashMap<Plate, Rect>`. -/
def lookupP (m : List (Plate × Rect)) (p : Plate) : Option Rect :=
  (m.find? (fun e => decide (e.1 = p))).map Prod.snd

/-- Removal of a key from the association-list model of `HashMap<Plate, Rect>`. -/
def removeP (m : List (Plate × Rect)) (p : Plate) : List (Plate × Rect) :=
  m.filter (fun e => decide (e.1 ≠ p))

/-- Insertion (overwriting the key if present) in the association-list model of
`HashMap<Plate, Rect>`. -/
def insertP (m : List (Plate × Rect)) (p : Plate) (r : Rect) : List (Plate × Rect) :=
  (p, r) :: removeP m p

/-- Body of `for plate in row` of the cross-row merge at row index `y`.
The state is `(current_rects, previous_rects)`; `previous_rects.remove`
returns the removed binding, which either gets its `top` incremented or a
fresh one-row rectangle is started. -/
def mergeRowStep (y : Int) (st : List (Plate × Rect) × List (Plate × Rect))
    (p : Plate) : List (Plate × Rect) × List (Plate × Rect) :=
  match lookupP st.2 p with
  | some r => (insertP st.1 p { r with top := r.top + 1 }, removeP st.2 p)
  | none =>
      (insertP st.1 p { left := p.left, right := p.right, top := y, bottom := y }, st.2)

/-- Processing of one row of the plate stack: returns the pair
`(current_rects, previous_rects-after-removals)`. -/
def mergeRow (y : Int) (row : List Plate) (prev : List (Plate × Rect)) :
    List (Plate × Rect) × List (Plate × Rect) :=
  row.foldl (mergeRowStep y) ([], prev)

/-- The `for (y, row) in plate_stack.iter().enumerate()` loop: after each row,
the bindings remaining in `previous_rects` are flushed to `wall_rects` and
`previous_rects` becomes `current_rects`. -/
def mergeGo : List (List Plate) → Int → List (Plate × Rect) → List Rect
  | [], _, _ => []
  | row :: rest, y, prev =>
      (mergeRow y row prev).2.map Prod.snd ++ mergeGo rest (y + 1) (mergeRow y row prev).1

/-- The full merging pipeline on one level's wall set: the plate stack with the
extra empty sentinel row pushed, merged from row `0` with no rectangle in
progress. -/
def wallRects (walls : Finset (Int × Int)) (width height : Int) : List Rect :=
  mergeGo (plateStack walls width height ++ [[]]) 0 []

/-- Model of the heron collider spawned for one wall rectangle: cuboid
half-extents, world-space center, `RigidBody::Static` (a static body neither
moves nor rotates), fixed friction, and the owning level as parent.  The `f32`
arithmetic of the source is modelled exactly over `ℚ`. -/
structure Collider where
  halfExtents : Rat × Rat
  center : Rat × Rat
  isStatic : Bool
  friction : Rat
  parent : Nat
deriving DecidableEq

/-- The collider spawned for `wall_rect` (the body of
`for wall_rect in wall_rects`). -/
def mkCollider (gridSize : Int) (levelEntity : Nat) (r : Rect) : Collider :=
  { halfExtents :=
      (((r.right : Rat) - (r.left : Rat) + 1) * (gridSize : Rat) / 2,
       ((r.top : Rat) - (r.bottom : Rat) + 1) * (gridSize : Rat) / 2),
    center :=
      (((r.left + r.right + 1 : Int) : Rat) * (gridSize : Rat) / 2,
       ((r.bottom + r.top + 1 : Int) : Rat) * (gridSize : Rat) / 2),
    isStatic := true,
    friction := 1 / 10,
    parent := levelEntity }

/-- Collider emission for every merged rectangle of one level. -/
def emitColliders (gridSize : Int) (levelEntity : Nat) (rects : List Rect) :
    List Collider :=
  rects.map (mkCollider gridSize levelEntity)

/-- Model of the single `LayerInstance` the pass reads: grid width `c_wid`,
grid height `c_hei` and cell size `grid_size`. -/
structure LayerInstance where
  c_wid : Int
  c_hei : Int
  grid_size : Int
deriving DecidableEq

/-- Model of the loaded `LdtkLevel` asset: its (optional) layer-instance list. -/
structure LdtkLevel where
  layer_instances : Option (List LayerInstance)
deriving DecidableEq

/-- One step of wall-location extraction: a wall tile carries its grid
coordinates and its direct parent (a tilemap chunk); `parentOf` is the
grandparent lookup (`parent_query.get`).  A tile whose grandparent lookup
fails is skipped; otherwise its coordinates join the wall set of the level. -/
def extractStep (parentOf : Nat → Option Nat)
    (m : Nat → Finset (Int × Int)) (t : (Int × Int) × Nat) :
    Nat → Finset (Int × Int) :=
  match parentOf t.2 with
  | some lvl => fun e => if e = lvl then insert t.1 (m e) else m e
  | none => m

/-- Wall-location extraction over all newly added wall tiles:
`level_to_wall_locations` as a total function defaulting to the empty set
(a key is present in the Rust `HashMap` exactly when its set is non-empty). -/
def extract (parentOf : Nat → Option Nat) (tiles : List ((Int × Int) × Nat)) :
    Nat → Finset (Int × Int) :=
  tiles.foldl (extractStep parentOf) (fun _ => ∅)

/-- Processing of one level of `level_query`: `levels.get(...).expect(...)`
and the `[0]` index of the layer list are panics, modelled as `Except.error`
with the corresponding panic message. -/
def processLevel (asset : Option LdtkLevel) (levelWalls : Finset (Int × Int))
    (levelEntity : Nat) : Except String (List Collider) :=
  match asset with
  | none => Except.error "Level should be loaded by this point"
  | some lvl =>
      match lvl.layer_instances with
      | none => Except.error "Level asset should have layers"
      | some [] => Except.error "index out of bounds"
      | some (li :: _) =>
          Except.ok (emitColliders li.grid_size levelEntity
            (wallRects levelWalls li.c_wid li.c_hei))

/-- The `level_query.for_each` loop: levels whose entity has no wall set are
skipped; a panic while processing any level aborts the whole pass. -/
def processLevels (m : Nat → Finset (Int × Int)) :
    List (Nat × Option LdtkLevel) → Except String (List Collider)
  | [] => Except.ok []
  | (e, asset) :: rest =>
      if m e = ∅ then processLevels m rest
      else
        match processLevel asset (m e) e with
        | Except.error msg => Except.error msg
        | Except.ok cs =>
            match processLevels m rest with
            | Except.error msg => Except.error msg
            | Except.ok rest_cs => Except.ok (cs ++ rest_cs)

/-- The whole system `spawn_wall_collision`: if no wall tile was added this
pass, nothing happens; otherwise extraction feeds the per-level pipeline. -/
def spawn_wall_collision (tiles : List ((Int × Int) × Nat))
    (parentOf : Nat → Option Nat) (levels : List (Nat × Option LdtkLevel)) :
    Except String (List Collider) :=
  if tiles.isEmpty then Except.ok []
  else processLevels (extract parentOf tiles) levels

/-! ### Basic facts about integer ranges -/

theorem intsFrom_mem {x a : Int} {n : Nat} : x ∈ intsFrom a n ↔ a ≤ x ∧ x < a + n := by
  induction n generalizing a with
  | zero => simp only [intsFrom, List.not_mem_nil, false_iff]; omega
  | succ n ih =>
      simp only [intsFrom, List.mem_cons, ih]
      omega

theorem intsFrom_concat (a : Int) (n : Nat) :
    intsFrom a (n + 1) = intsFrom a n ++ [a + n] := by
  induction n generalizing a with
  | zero => simp [intsFrom]
  | succ n ih =>
      have h1 : intsFrom a (n + 1 + 1) = a :: intsFrom (a + 1) (n + 1) := rfl
      have h2 : intsFrom a (n + 1) = a :: intsFrom (a + 1) n := rfl
      rw [h1, ih, h2]
      have h3 : a + 1 + (n : Int) = a + ((n + 1 : Nat) : Int) := by push_cast; ring
      rw [h3]
      simp

/-! ### The row-plate stage: scan invariants -/

theorem rowStep_wall_none {walls : Finset (Int × Int)} {y x : Int}
    {st : Option Int × List Plate} (hw : (x, y) ∈ walls) (h : st.1 = none) :
    rowStep walls y st x = (some x, st.2) := by
  simp [rowStep, hw, h]

theorem rowStep_wall_some {walls : Finset (Int × Int)} {y x s : Int}
    {st : Option Int × List Plate} (hw : (x, y) ∈ walls) (h : st.1 = some s) :
    rowStep walls y st x = st := by
  simp [rowStep, hw, h]

theorem rowStep_nowall_some {walls : Finset (Int × Int)} {y x s : Int}
    {st : Option Int × List Plate} (hw : (x, y) ∉ walls) (h : st.1 = some s) :
    rowStep walls y st x = (none, st.2 ++ [{ left := s, right := x - 1 }]) := by
  simp [rowStep, hw, h]

theorem rowStep_nowall_none {walls : Finset (Int × Int)} {y x : Int}
    {st : Option Int × List Plate} (hw : (x, y) ∉ walls) (h : st.1 = none) :
    rowStep walls y st x = st := by
  simp [rowStep, hw, h]

/-- Scan invariant needing no assumption on the wall set: every accumulated
plate satisfies `0 ≤ left ≤ right ≤ (position) - 2`, plate rights are strictly
increasing, and an in-progress start lies in `[0, position - 1]`. -/
theorem rowScan_weak (walls : Finset (Int × Int)) (y : Int) (n : Nat) :
    ∀ (a : Int) (st : Option Int × List Plate),
      0 ≤ a →
      (∀ s, st.1 = some s → 0 ≤ s ∧ s ≤ a - 1) →
      (∀ p ∈ st.2, 0 ≤ p.left ∧ p.left ≤ p.right ∧ p.right ≤ a - 2) →
      st.2.Pairwise (fun p q => p.right < q.right) →
      (∀ s, ((intsFrom a n).foldl (rowStep walls y) st).1 = some s →
          0 ≤ s ∧ s ≤ a + n - 1) ∧
      (∀ p ∈ ((intsFrom a n).foldl (rowStep walls y) st).2,
          0 ≤ p.left ∧ p.left ≤ p.right ∧ p.right ≤ a + n - 2) ∧
      ((intsFrom a n).foldl (rowStep walls y) st).2.Pairwise
        (fun p q => p.right < q.right) := by
  induction n with
  | zero =>
      intro a st ha h1 h2 h3
      simp only [intsFrom, List.foldl_nil]
      refine ⟨fun s hs => ?_, fun p hp => ?_, h3⟩
      · have := h1 s hs; omega
      · have := h2 p hp; omega
  | succ n ih =>
      intro a st ha h1 h2 h3
      have hstep : (intsFrom a (n + 1)).foldl (rowStep walls y) st
          = (intsFrom (a + 1) n).foldl (rowStep walls y) (rowStep walls y st a) := rfl
      rw [hstep]
      have hmain : (∀ s, (rowStep walls y st a).1 = some s → 0 ≤ s ∧ s ≤ (a + 1) - 1) ∧
          (∀ p ∈ (rowStep walls y st a).2,
            0 ≤ p.left ∧ p.left ≤ p.right ∧ p.right ≤ (a + 1) - 2) ∧
          (rowStep walls y st a).2.Pairwise (fun p q => p.right < q.right) := by
        by_cases hw : (a, y) ∈ walls
        · cases hst : st.1 with
          | none =>
              rw [rowStep_wall_none hw hst]
              refine ⟨fun s hs => ?_, fun p hp => ?_, h3⟩
              · simp only [Option.some.injEq] at hs; omega
              · have := h2 p hp; omega
          | some s0 =>
              rw [rowStep_wall_some hw hst]
              refine ⟨fun s hs => ?_, fun p hp => ?_, h3⟩
              · have := h1 s hs; omega
              · have := h2 p hp; omega
        · cases hst : st.1 with
          | none =>
              rw [rowStep_nowall_none hw hst]
              refine ⟨fun s hs => ?_, fun p hp => ?_, h3⟩
              · have := h1 s hs; omega
              · have := h2 p hp; omega
          | some s0 =>
              rw [rowStep_nowall_some hw hst]
              have hs0 := h1 s0 hst
              refine ⟨fun s hs => ?_, fun p hp => ?_, ?_⟩
              · simp at hs
              · rcases List.mem_append.1 hp with h | h
                · have := h2 p h; omega
                · simp only [List.mem_singleton] at h
                  subst h
                  simp only []
                  omega
              · rw [List.pairwise_append]
                refine ⟨h3, List.pairwise_singleton _ _, fun p hp q hq => ?_⟩
                simp only [List.mem_singleton] at hq
                subst hq
                have := h2 p hp
                simp only []
                omega
      obtain ⟨g1, g2, g3⟩ := ih (a + 1) (rowStep walls y st a) (by omega)
        hmain.1 hmain.2.1 hmain.2.2
      refine ⟨fun s hs => ?_, fun p hp => ?_, g3⟩
      · have := g1 s hs; omega
      · have := g2 p hp
        exact ⟨this.1, this.2.1, by omega⟩

/-- The predicate characterising the plates of a row: a maximal horizontal run
of in-grid wall cells. -/
def IsMaxRun (walls : Finset (Int × Int)) (width y : Int) (p : Plate) : Prop :=
  0 ≤ p.left ∧ p.left ≤ p.right ∧ p.right < width ∧
  (∀ x, p.left ≤ x → x ≤ p.right → (x, y) ∈ walls) ∧
  (p.left - 1, y) ∉ walls ∧ (p.right + 1, y) ∉ walls

/-- Two maximal intervals of a predicate on `Int` that share a point coincide. -/
theorem max_interval_eq {Q : Int → Prop} {a1 b1 a2 b2 i : Int}
    (h1 : ∀ j, a1 ≤ j → j ≤ b1 → Q j) (h1l : ¬Q (a1 - 1)) (h1r : ¬Q (b1 + 1))
    (h2 : ∀ j, a2 ≤ j → j ≤ b2 → Q j) (h2l : ¬Q (a2 - 1)) (h2r : ¬Q (b2 + 1))
    (hi1 : a1 ≤ i) (hi2 : i ≤ b1) (hi3 : a2 ≤ i) (hi4 : i ≤ b2) :
    a1 = a2 ∧ b1 = b2 := by
  constructor
  · by_contra hne
    rcases lt_or_gt_of_ne hne with h | h
    · exact h2l (h1 (a2 - 1) (by omega) (by omega))
    · exact h1l (h2 (a1 - 1) (by omega) (by omega))
  · by_contra hne
    rcases lt_or_gt_of_ne hne with h | h
    · exact h1r (h2 (b1 + 1) (by omega) (by omega))
    · exact h2r (h1 (b2 + 1) (by omega) (by omega))

/-- Two maximal runs of the same row that share a column are equal. -/
theorem isMaxRun_eq {walls : Finset (Int × Int)} {width y : Int} {p q : Plate} {x : Int}
    (hp : IsMaxRun walls width y p) (hq : IsMaxRun walls width y q)
    (hx1 : p.left ≤ x) (hx2 : x ≤ p.right) (hx3 : q.left ≤ x) (hx4 : x ≤ q.right) :
    p = q := by
  obtain ⟨_, _, _, hpr, hpl1, hpr1⟩ := hp
  obtain ⟨_, _, _, hqr, hql1, hqr1⟩ := hq
  obtain ⟨hl, hr⟩ := max_interval_eq hpr hpl1 hpr1 hqr hql1 hqr1 hx1 hx2 hx3 hx4
  ext <;> assumption

/-- Scan invariant characterising the accumulated plates exactly, for a wall
set whose row-`y` cells all lie in `[0, width)`. -/
theorem rowScan_char {walls : Finset (Int × Int)} {width y : Int}
    (hx : ∀ x : Int, (x, y) ∈ walls → 0 ≤ x ∧ x < width) (n : Nat) :
    ∀ (a : Int) (st : Option Int × List Plate),
      0 ≤ a → a + n = width + 1 →
      (st.1 = none → ((a - 1, y) ∉ walls)) →
      (∀ s, st.1 = some s →
          0 ≤ s ∧ s ≤ a - 1 ∧ (∀ x, s ≤ x → x < a → (x, y) ∈ walls) ∧ (s - 1, y) ∉ walls) →
      (∀ p, p ∈ st.2 ↔ (IsMaxRun walls width y p ∧ p.right ≤ a - 2)) →
      ∀ p, p ∈ ((intsFrom a n).foldl (rowStep walls y) st).2 ↔
        IsMaxRun walls width y p := by
  induction n with
  | zero =>
      intro a st ha han hnone hsome hacc p
      simp only [intsFrom, List.foldl_nil]
      rw [hacc p]
      constructor
      · exact fun h => h.1
      · intro h
        refine ⟨h, ?_⟩
        have := h.2.2.1
        omega
  | succ n ih =>
      intro a st ha han hnone hsome hacc
      have hstep : (intsFrom a (n + 1)).foldl (rowStep walls y) st
          = (intsFrom (a + 1) n).foldl (rowStep walls y) (rowStep walls y st a) := rfl
      rw [hstep]
      have han' : (a + 1) + (n : Int) = width + 1 := by push_cast at han; omega
      by_cases hw : (a, y) ∈ walls
      · cases hst : st.1 with
        | none =>
            rw [rowStep_wall_none hw hst]
            refine ih (a + 1) (some a, st.2) (by omega) han' ?_ ?_ ?_
            · intro h; simp at h
            · intro s hs
              have hsa : s = a := by simpa using hs.symm
              refine ⟨by omega, by omega, fun x hx1 hx2 => ?_, by rw [hsa]; exact hnone hst⟩
              have hxa : x = a := by omega
              subst hxa
              exact hw
            · intro p
              rw [hacc p]
              constructor
              · intro h; exact ⟨h.1, by omega⟩
              · intro h
                refine ⟨h.1, ?_⟩
                by_contra hcon
                have hre : p.right = a - 1 := by omega
                have : (p.right, y) ∈ walls := h.1.2.2.2.1 p.right h.1.2.1 le_rfl
                rw [hre] at this
                exact hnone hst this
        | some s0 =>
            rw [rowStep_wall_some hw hst]
            obtain ⟨hs1, hs2, hs3, hs4⟩ := hsome s0 hst
            refine ih (a + 1) st (by omega) han' ?_ ?_ ?_
            · intro h; rw [hst] at h; simp at h
            · intro s hs
              rw [hst] at hs
              simp only [Option.some.injEq] at hs
              subst hs
              refine ⟨hs1, by omega, fun x hx1 hx2 => ?_, hs4⟩
              by_cases hxa : x = a
              · subst hxa; exact hw
              · exact hs3 x hx1 (by omega)
            · intro p
              rw [hacc p]
              constructor
              · intro h; exact ⟨h.1, by omega⟩
              · intro h
                refine ⟨h.1, ?_⟩
                by_contra hcon
                have hre : p.right + 1 = a := by omega
                have := h.1.2.2.2.2.2
                rw [hre] at this
                exact this hw
      · cases hst : st.1 with
        | none =>
            rw [rowStep_nowall_none hw hst]
            refine ih (a + 1) st (by omega) han' ?_ ?_ ?_
            · intro _
              have : a + 1 - 1 = a := by omega
              rw [this]
              exact hw
            · intro s hs; rw [hst] at hs; simp at hs
            · intro p
              rw [hacc p]
              constructor
              · intro h; exact ⟨h.1, by omega⟩
              · intro h
                refine ⟨h.1, ?_⟩
                by_contra hcon
                have hre : p.right = a - 1 := by omega
                have : (p.right, y) ∈ walls := h.1.2.2.2.1 p.right h.1.2.1 le_rfl
                rw [hre] at this
                exact hnone hst this
        | some s0 =>
            rw [rowStep_nowall_some hw hst]
            obtain ⟨hs1, hs2, hs3, hs4⟩ := hsome s0 hst
            have hpstar : IsMaxRun walls width y { left := s0, right := a - 1 } := by
              have hwid2 : a - 1 < width := by
                have hmem : (a - 1, y) ∈ walls := hs3 (a - 1) (by omega) (by omega)
                have := hx (a - 1) hmem
                omega
              refine ⟨?_, ?_, ?_, ?_, ?_, ?_⟩
              · show (0 : Int) ≤ s0
                omega
              · show s0 ≤ a - 1
                omega
              · show a - 1 < width
                exact hwid2
              · show ∀ x, s0 ≤ x → x ≤ a - 1 → (x, y) ∈ walls
                intro x hx1 hx2
                exact hs3 x hx1 (by omega)
              · show (s0 - 1, y) ∉ walls
                exact hs4
              · show (a - 1 + 1, y) ∉ walls
                have he : a - 1 + 1 = a := by omega
                rw [he]
                exact hw
            refine ih (a + 1) (none, st.2 ++ [{ left := s0, right := a - 1 }])
              (by omega) han' ?_ ?_ ?_
            · intro _
              have : a + 1 - 1 = a := by omega
              rw [this]
              exact hw
            · intro s hs; simp at hs
            · intro p
              simp only [List.mem_append, List.mem_singleton]
              rw [hacc p]
              constructor
              · rintro (h | h)
                · exact ⟨h.1, by omega⟩
                · subst h
                  refine ⟨hpstar, ?_⟩
                  show a - 1 ≤ a + 1 - 2
                  omega
              · intro h
                obtain ⟨⟨hb1, hb2, hb3, hb4, hb5, hb6⟩, hbr⟩ := h
                by_cases hre : p.right ≤ a - 2
                · exact Or.inl ⟨⟨hb1, hb2, hb3, hb4, hb5, hb6⟩, hre⟩
                · refine Or.inr (@isMaxRun_eq walls width y p { left := s0, right := a - 1 }
                    (a - 1) ⟨hb1, hb2, hb3, hb4, hb5, hb6⟩ hpstar ?_ ?_ ?_ ?_)
                  · show p.left ≤ a - 1
                    omega
                  · show a - 1 ≤ p.right
                    omega
                  · show s0 ≤ a - 1
                    omega
                  · show a - 1 ≤ a - 1
                    omega

theorem rowPlates_mem {walls : Finset (Int × Int)} {width y : Int}
    (hx : ∀ x : Int, (x, y) ∈ walls → 0 ≤ x ∧ x < width) (p : Plate) :
    p ∈ rowPlates walls width y ↔ IsMaxRun walls width y p := by
  by_cases hwid : 0 ≤ width + 1
  · have hn : ((width + 1).toNat : Int) = width + 1 := Int.toNat_of_nonneg hwid
    refine rowScan_char hx (width + 1).toNat 0 (none, []) le_rfl (by omega) ?_ ?_ ?_ p
    · intro _ hmem
      have := hx _ hmem
      omega
    · intro s hs; simp at hs
    · intro q
      simp only [List.not_mem_nil, false_iff]
      rintro ⟨⟨h1, h2, -, -, -, -⟩, hb⟩
      omega
  · have hn : (width + 1).toNat = 0 := by omega
    unfold rowPlates intRange
    rw [hn]
    simp only [intsFrom, List.foldl_nil, List.not_mem_nil, false_iff]
    rintro ⟨h1, h2, h3, -, -, -⟩
    omega

theorem rowPlates_bounds {walls : Finset (Int × Int)} {width y : Int} (p : Plate)
    (hp : p ∈ rowPlates walls width y) :
    0 ≤ p.left ∧ p.left ≤ p.right ∧ p.right < width := by
  have h := (rowScan_weak walls y (width + 1).toNat 0 (none, []) le_rfl
    (by intro s hs; simp at hs) (by intro q hq; simp at hq)
    (List.Pairwise.nil)).2.1 p hp
  refine ⟨h.1, h.2.1, ?_⟩
  have := h.2.2
  by_cases hwid : 0 ≤ width + 1
  · have hn : ((width + 1).toNat : Int) = width + 1 := Int.toNat_of_nonneg hwid
    omega
  · have hn : ((width + 1).toNat : Int) = 0 := by omega
    omega

theorem rowPlates_pairwise (walls : Finset (Int × Int)) (width y : Int) :
    (rowPlates walls width y).Pairwise (fun p q => p.right < q.right) :=
  (rowScan_weak walls y (width + 1).toNat 0 (none, []) le_rfl
    (by intro s hs; simp at hs) (by intro q hq; simp at hq)
    (List.Pairwise.nil)).2.2

theorem rowPlates_nodup (walls : Finset (Int × Int)) (width y : Int) :
    (rowPlates walls width y).Nodup := by
  have h := rowPlates_pairwise walls width y
  refine h.imp ?_
  intro p q hpq he
  rw [he] at hpq
  exact lt_irrefl _ hpq

theorem rowPlates_of_empty_row {walls : Finset (Int × Int)} {width y : Int}
    (h : ∀ x : Int, (x, y) ∉ walls) : rowPlates walls width y = [] := by
  have hfold : ∀ (xs : List Int),
      xs.foldl (rowStep walls y) ((none : Option Int), ([] : List Plate)) = (none, []) := by
    intro xs
    induction xs with
    | nil => rfl
    | cons x xs ih =>
        rw [List.foldl_cons, rowStep_nowall_none (h x) rfl]
        exact ih
  unfold rowPlates
  rw [hfold]

/-! ### The plate stack seen as a total row function -/

/-- In-grid wall sets: every wall coordinate lies inside the level grid. -/
def InGrid (walls : Finset (Int × Int)) (width height : Int) : Prop :=
  ∀ c ∈ walls, 0 ≤ c.1 ∧ c.1 < width ∧ 0 ≤ c.2 ∧ c.2 < height

instance (walls : Finset (Int × Int)) (width height : Int) :
    Decidable (InGrid walls width height) := by
  unfold InGrid
  infer_instance

/-- The row the cross-row merge sees at index `y`: the plates of row `y` for
the real rows `0 ≤ y < height`, and the empty (sentinel) row otherwise. -/
def stackRow (walls : Finset (Int × Int)) (width height y : Int) : List Plate :=
  if 0 ≤ y ∧ y < height then rowPlates walls width y else []

theorem stackRow_range {walls : Finset (Int × Int)} {width height y : Int} {p : Plate}
    (h : p ∈ stackRow walls width height y) : 0 ≤ y ∧ y < height := by
  unfold stackRow at h
  by_cases hy : 0 ≤ y ∧ y < height
  · exact hy
  · rw [if_neg hy] at h
    simp at h

theorem stackRow_nodup (walls : Finset (Int × Int)) (width height y : Int) :
    (stackRow walls width height y).Nodup := by
  unfold stackRow
  by_cases hy : 0 ≤ y ∧ y < height
  · rw [if_pos hy]
    exact rowPlates_nodup walls width y
  · rw [if_neg hy]
    exact List.nodup_nil

theorem stackRow_bounds {walls : Finset (Int × Int)} {width height y : Int} {p : Plate}
    (h : p ∈ stackRow walls width height y) :
    0 ≤ p.left ∧ p.left ≤ p.right ∧ p.right < width := by
  unfold stackRow at h
  by_cases hy : 0 ≤ y ∧ y < height
  · rw [if_pos hy] at h
    exact rowPlates_bounds p h
  · rw [if_neg hy] at h
    simp at h

/-- Under the in-grid assumption, membership in any merge row (sentinel rows
included) is exactly being a maximal run of that row. -/
theorem stackRow_mem {walls : Finset (Int × Int)} {width height : Int}
    (hg : InGrid walls width height) (y : Int) (p : Plate) :
    p ∈ stackRow walls width height y ↔ IsMaxRun walls width y p := by
  unfold stackRow
  by_cases hy : 0 ≤ y ∧ y < height
  · rw [if_pos hy]
    exact rowPlates_mem (fun x hx => ⟨(hg _ hx).1, (hg _ hx).2.1⟩) p
  · rw [if_neg hy]
    simp only [List.not_mem_nil, false_iff]
    rintro ⟨-, h2, -, hrun, -, -⟩
    have hmem : (p.left, y) ∈ walls := hrun p.left le_rfl h2
    have hc := hg _ hmem
    exact hy ⟨hc.2.2.1, hc.2.2.2⟩

/-- The list the merge loop actually walks (plate stack plus pushed sentinel)
is the row function mapped over `0, 1, ..., height`. -/
theorem plateStack_sentinel (walls : Finset (Int × Int)) (width height : Int)
    (hh : 0 ≤ height) :
    plateStack walls width height ++ [[]] =
      (intsFrom 0 (height.toNat + 1)).map (stackRow walls width height) := by
  rw [intsFrom_concat, List.map_append]
  have hcast : ((height.toNat : Int)) = height := Int.toNat_of_nonneg hh
  congr 1
  · unfold plateStack intRange
    apply List.map_congr_left
    intro y hy
    rw [intsFrom_mem] at hy
    unfold stackRow
    rw [if_pos (by omega)]
  · simp only [List.map_cons, List.map_nil]
    unfold stackRow
    rw [if_neg (by omega)]

/-! ### Existence of maximal runs and of maximal vertical extents -/

theorem exists_left_end {walls : Finset (Int × Int)} {y : Int}
    (hx : ∀ x : Int, (x, y) ∈ walls → 0 ≤ x) :
    ∀ (k : Nat) (x0 : Int), x0.toNat ≤ k → (x0, y) ∈ walls →
      ∃ l, 0 ≤ l ∧ l ≤ x0 ∧ (∀ x, l ≤ x → x ≤ x0 → (x, y) ∈ walls) ∧
        (l - 1, y) ∉ walls := by
  intro k
  induction k with
  | zero =>
      intro x0 hk hw
      have h0 : x0 = 0 := by have := hx x0 hw; omega
      subst h0
      refine ⟨0, le_rfl, le_rfl, fun x h1 h2 => ?_, fun hm => ?_⟩
      · have hx0 : x = 0 := by omega
        subst hx0
        exact hw
      · have := hx _ hm
        omega
  | succ k ih =>
      intro x0 hk hw
      by_cases hm : (x0 - 1, y) ∈ walls
      · obtain ⟨l, h1, h2, h3, h4⟩ := ih (x0 - 1) (by have := hx _ hm; omega) hm
        refine ⟨l, h1, by omega, fun x hx1 hx2 => ?_, h4⟩
        by_cases hxx : x = x0
        · subst hxx; exact hw
        · exact h3 x hx1 (by omega)
      · refine ⟨x0, hx x0 hw, le_rfl, fun x h1 h2 => ?_, hm⟩
        have hxx : x = x0 := by omega
        subst hxx
        exact hw

theorem exists_right_end {walls : Finset (Int × Int)} {width y : Int}
    (hx : ∀ x : Int, (x, y) ∈ walls → x < width) :
    ∀ (k : Nat) (x0 : Int), (width - x0).toNat ≤ k → (x0, y) ∈ walls →
      ∃ r, x0 ≤ r ∧ r < width ∧ (∀ x, x0 ≤ x → x ≤ r → (x, y) ∈ walls) ∧
        (r + 1, y) ∉ walls := by
  intro k
  induction k with
  | zero =>
      intro x0 hk hw
      exfalso
      have := hx _ hw
      omega
  | succ k ih =>
      intro x0 hk hw
      by_cases hm : (x0 + 1, y) ∈ walls
      · obtain ⟨r, h1, h2, h3, h4⟩ := ih (x0 + 1) (by have := hx _ hm; omega) hm
        refine ⟨r, by omega, h2, fun x hx1 hx2 => ?_, h4⟩
        by_cases hxx : x = x0
        · subst hxx; exact hw
        · exact h3 x (by omega) hx2
      · refine ⟨x0, le_rfl, hx _ hw, fun x h1 h2 => ?_, hm⟩
        have hxx : x = x0 := by omega
        subst hxx
        exact hw

/-- Every in-grid wall cell lies inside some maximal run of its row. -/
theorem exists_maxRun {walls : Finset (Int × Int)} {width y : Int}
    (hx : ∀ x : Int, (x, y) ∈ walls → 0 ≤ x ∧ x < width)
    {x0 : Int} (hw : (x0, y) ∈ walls) :
    ∃ p : Plate, IsMaxRun walls width y p ∧ p.left ≤ x0 ∧ x0 ≤ p.right := by
  obtain ⟨l, hl1, hl2, hl3, hl4⟩ :=
    exists_left_end (fun x h => (hx x h).1) x0.toNat x0 le_rfl hw
  obtain ⟨r, hr1, hr2, hr3, hr4⟩ :=
    exists_right_end (fun x h => (hx x h).2) (width - x0).toNat x0 le_rfl hw
  refine ⟨{ left := l, right := r },
    ⟨hl1, show l ≤ r by omega, hr2, fun x h1 h2 => ?_, hl4, hr4⟩, hl2, hr1⟩
  by_cases hxx : x ≤ x0
  · exact hl3 x h1 hxx
  · exact hr3 x (by omega) h2

theorem exists_run_bottom {walls : Finset (Int × Int)} {width height : Int} (p : Plate) :
    ∀ (k : Nat) (y : Int), y.toNat ≤ k → p ∈ stackRow walls width height y →
      ∃ b, 0 ≤ b ∧ b ≤ y ∧
        (∀ y2, b ≤ y2 → y2 ≤ y → p ∈ stackRow walls width height y2) ∧
        p ∉ stackRow walls width height (b - 1) := by
  intro k
  induction k with
  | zero =>
      intro y hk hmem
      have hy := stackRow_range hmem
      have h0 : y = 0 := by omega
      subst h0
      refine ⟨0, le_rfl, le_rfl, fun y2 h1 h2 => ?_, fun hm => ?_⟩
      · have : y2 = 0 := by omega
        subst this
        exact hmem
      · have := stackRow_range hm
        omega
  | succ k ih =>
      intro y hk hmem
      have hy := stackRow_range hmem
      by_cases hm : p ∈ stackRow walls width height (y - 1)
      · have hy1 := stackRow_range hm
        obtain ⟨b, h1, h2, h3, h4⟩ := ih (y - 1) (by omega) hm
        refine ⟨b, h1, by omega, fun y2 hy2 hy3 => ?_, h4⟩
        by_cases hyy : y2 = y
        · subst hyy; exact hmem
        · exact h3 y2 hy2 (by omega)
      · refine ⟨y, hy.1, le_rfl, fun y2 h1 h2 => ?_, hm⟩
        have : y2 = y := by omega
        subst this
        exact hmem

theorem exists_run_top {walls : Finset (Int × Int)} {width height : Int} (p : Plate) :
    ∀ (k : Nat) (y : Int), (height - y).toNat ≤ k → p ∈ stackRow walls width height y →
      ∃ t, y ≤ t ∧ t < height ∧
        (∀ y2, y ≤ y2 → y2 ≤ t → p ∈ stackRow walls width height y2) ∧
        p ∉ stackRow walls width height (t + 1) := by
  intro k
  induction k with
  | zero =>
      intro y hk hmem
      exfalso
      have := stackRow_range hmem
      omega
  | succ k ih =>
      intro y hk hmem
      have hy := stackRow_range hmem
      by_cases hm : p ∈ stackRow walls width height (y + 1)
      · have hy1 := stackRow_range hm
        obtain ⟨t, h1, h2, h3, h4⟩ := ih (y + 1) (by omega) hm
        refine ⟨t, by omega, h2, fun y2 hy2 hy3 => ?_, h4⟩
        by_cases hyy : y2 = y
        · subst hyy; exact hmem
        · exact h3 y2 (by omega) hy3
      · exact ⟨y, le_rfl, hy.2, fun y2 h1 h2 => by
          have : y2 = y := by omega
          subst this
          exact hmem, hm⟩

/-! ### The association-list model of `HashMap<Plate, Rect>` -/

theorem mem_removeP_pair {m : List (Plate × Rect)} {p : Plate} {e : Plate × Rect} :
    e ∈ removeP m p ↔ e ∈ m ∧ e.1 ≠ p := by
  unfold removeP
  rw [List.mem_filter]
  simp

theorem mem_removeP {m : List (Plate × Rect)} {p q : Plate} {r : Rect} :
    (q, r) ∈ removeP m p ↔ (q, r) ∈ m ∧ q ≠ p :=
  mem_removeP_pair

theorem mem_insertP {m : List (Plate × Rect)} {p q : Plate} {r v : Rect} :
    (q, r) ∈ insertP m p v ↔ (q = p ∧ r = v) ∨ ((q, r) ∈ m ∧ q ≠ p) := by
  unfold insertP
  rw [List.mem_cons, mem_removeP, Prod.mk.injEq]

theorem lookupP_eq_none {m : List (Plate × Rect)} {p : Plate} :
    lookupP m p = none ↔ ∀ r, (p, r) ∉ m := by
  unfold lookupP
  rw [Option.map_eq_none', List.find?_eq_none]
  constructor
  · intro h r hmem
    have := h _ hmem
    simp at this
  · intro h e hmem hdec
    simp only [decide_eq_true_eq] at hdec
    exact h e.2 (by rw [← hdec]; exact hmem)

theorem mem_of_lookupP_some {m : List (Plate × Rect)} {p : Plate} {r : Rect}
    (h : lookupP m p = some r) : (p, r) ∈ m := by
  unfold lookupP at h
  cases hf : m.find? (fun e => decide (e.1 = p)) with
  | none => rw [hf] at h; simp at h
  | some e =>
      rw [hf] at h
      simp only [Option.map_some', Option.some.injEq] at h
      have he : e ∈ m := List.mem_of_find?_eq_some hf
      have hp : e.1 = p := by simpa using List.find?_some hf
      obtain ⟨e1, e2⟩ := e
      simp only [] at hp h
      rw [← hp, ← h]
      exact he

theorem lookupP_eq_some_of_mem {m : List (Plate × Rect)} {p : Plate} {r : Rect}
    (hnd : (m.map Prod.fst).Nodup) (h : (p, r) ∈ m) : lookupP m p = some r := by
  induction m with
  | nil => simp at h
  | cons e m ih =>
      rw [List.map_cons, List.nodup_cons] at hnd
      by_cases hep : e.1 = p
      · rcases List.mem_cons.1 h with he | hm
        · unfold lookupP
          rw [List.find?_cons_of_pos _ (by simpa using hep)]
          rw [← he]
          rfl
        · exfalso
          apply hnd.1
          rw [hep]
          exact List.mem_map.2 ⟨(p, r), hm, rfl⟩
      · have hm : (p, r) ∈ m := by
          rcases List.mem_cons.1 h with he | hm
          · exfalso; apply hep; rw [← he]
          · exact hm
        unfold lookupP
        rw [List.find?_cons_of_neg _ (by simpa using hep)]
        exact ih hnd.2 hm

theorem keys_nodup_removeP {m : List (Plate × Rect)}
    (hnd : (m.map Prod.fst).Nodup) (p : Plate) :
    ((removeP m p).map Prod.fst).Nodup :=
  hnd.sublist ((List.filter_sublist m).map Prod.fst)

theorem keys_nodup_insertP {m : List (Plate × Rect)}
    (hnd : (m.map Prod.fst).Nodup) (p : Plate) (v : Rect) :
    ((insertP m p v).map Prod.fst).Nodup := by
  unfold insertP
  rw [List.map_cons, List.nodup_cons]
  refine ⟨?_, keys_nodup_removeP hnd p⟩
  intro hmem
  rw [List.mem_map] at hmem
  obtain ⟨e, he, hfst⟩ := hmem
  have := mem_removeP_pair.1 he
  exact this.2 hfst

/-! ### The cross-row merge: one-row characterisation -/

theorem mergeRowStep_some {y : Int} {cur prevR : List (Plate × Rect)} {p : Plate}
    {r0 : Rect} (hl : lookupP prevR p = some r0) :
    mergeRowStep y (cur, prevR) p =
      (insertP cur p { r0 with top := r0.top + 1 }, removeP prevR p) := by
  unfold mergeRowStep
  rw [(hl : lookupP (cur, prevR).2 p = some r0)]

theorem mergeRowStep_none {y : Int} {cur prevR : List (Plate × Rect)} {p : Plate}
    (hl : lookupP prevR p = none) :
    mergeRowStep y (cur, prevR) p =
      (insertP cur p { left := p.left, right := p.right, top := y, bottom := y }, prevR) := by
  unfold mergeRowStep
  rw [(hl : lookupP (cur, prevR).2 p = none)]

theorem mergeRow_fold_prev (y : Int) :
    ∀ (row : List Plate) (cur prevR : List (Plate × Rect)) (q : Plate) (r : Rect),
      ((q, r) ∈ (row.foldl (mergeRowStep y) (cur, prevR)).2 ↔
        (q, r) ∈ prevR ∧ q ∉ row) := by
  intro row
  induction row with
  | nil => intro cur prevR q r; simp
  | cons p0 row ih =>
      intro cur prevR q r
      rw [List.foldl_cons]
      cases hl : lookupP prevR p0 with
      | some r0 =>
          rw [mergeRowStep_some hl, ih, mem_removeP]
          constructor
          · rintro ⟨⟨h1, h2⟩, h3⟩
            refine ⟨h1, fun hc => ?_⟩
            rcases List.mem_cons.1 hc with hc | hc
            · exact h2 hc
            · exact h3 hc
          · rintro ⟨h1, h2⟩
            exact ⟨⟨h1, fun hc => h2 (by rw [hc]; exact List.mem_cons_self _ _)⟩,
              fun hc => h2 (List.mem_cons_of_mem _ hc)⟩
      | none =>
          rw [mergeRowStep_none hl, ih]
          constructor
          · rintro ⟨h1, h2⟩
            refine ⟨h1, fun hc => ?_⟩
            rcases List.mem_cons.1 hc with hc | hc
            · rw [hc] at h1
              exact lookupP_eq_none.1 hl r h1
            · exact h2 hc
          · rintro ⟨h1, h2⟩
            exact ⟨h1, fun hc => h2 (List.mem_cons_of_mem _ hc)⟩

theorem mergeRow_fold_keys (y : Int) :
    ∀ (row : List Plate) (cur prevR : List (Plate × Rect)),
      (cur.map Prod.fst).Nodup → (prevR.map Prod.fst).Nodup →
      (((row.foldl (mergeRowStep y) (cur, prevR)).1.map Prod.fst).Nodup ∧
        ((row.foldl (mergeRowStep y) (cur, prevR)).2.map Prod.fst).Nodup) := by
  intro row
  induction row with
  | nil => intro cur prevR h1 h2; exact ⟨h1, h2⟩
  | cons p0 row ih =>
      intro cur prevR h1 h2
      rw [List.foldl_cons]
      cases hl : lookupP prevR p0 with
      | some r0 =>
          rw [mergeRowStep_some hl]
          exact ih _ _ (keys_nodup_insertP h1 _ _) (keys_nodup_removeP h2 _)
      | none =>
          rw [mergeRowStep_none hl]
          exact ih _ _ (keys_nodup_insertP h1 _ _) h2

theorem mergeRow_fold_cur (y : Int) :
    ∀ (row : List Plate) (cur prevR : List (Plate × Rect)),
      row.Nodup → (prevR.map Prod.fst).Nodup →
      ∀ (q : Plate) (r : Rect),
      ((q, r) ∈ (row.foldl (mergeRowStep y) (cur, prevR)).1 ↔
        ((q, r) ∈ cur ∧ q ∉ row) ∨
        (q ∈ row ∧
          ((∃ r0, (q, r0) ∈ prevR ∧ r = { r0 with top := r0.top + 1 }) ∨
            ((∀ r0, (q, r0) ∉ prevR) ∧
              r = { left := q.left, right := q.right, top := y, bottom := y })))) := by
  intro row
  induction row with
  | nil =>
      intro cur prevR hnd hk q r
      simp
  | cons p0 row ih =>
      intro cur prevR hnd hk q r
      rw [List.nodup_cons] at hnd
      rw [List.foldl_cons]
      cases hl : lookupP prevR p0 with
      | some r0 =>
          rw [mergeRowStep_some hl,
            ih _ _ hnd.2 (keys_nodup_removeP hk p0) q r]
          have hr0mem : (p0, r0) ∈ prevR := mem_of_lookupP_some hl
          have huniq : ∀ r1 : Rect, (p0, r1) ∈ prevR → r1 = r0 := by
            intro r1 h1
            have h2 := lookupP_eq_some_of_mem hk h1
            rw [hl] at h2
            exact (Option.some.inj h2).symm
          by_cases hq : q = p0
          · subst hq
            constructor
            · rintro (⟨h1, -⟩ | ⟨h1, -⟩)
              · rcases mem_insertP.1 h1 with ⟨-, hv⟩ | ⟨-, hne⟩
                · exact Or.inr ⟨List.mem_cons_self _ _, Or.inl ⟨r0, hr0mem, hv⟩⟩
                · exact absurd rfl hne
              · exact absurd h1 hnd.1
            · rintro (⟨-, hc⟩ | ⟨-, hext | hfresh⟩)
              · exact absurd (List.mem_cons_self _ _) hc
              · obtain ⟨r1, hr1, hv⟩ := hext
                rw [huniq r1 hr1] at hv
                exact Or.inl ⟨mem_insertP.2 (Or.inl ⟨rfl, hv⟩), hnd.1⟩
              · exact absurd hr0mem (hfresh.1 r0)
          · constructor
            · rintro (⟨h1, h2⟩ | ⟨h1, h2⟩)
              · rcases mem_insertP.1 h1 with ⟨he, -⟩ | ⟨hc, -⟩
                · exact absurd he hq
                · refine Or.inl ⟨hc, fun hm => ?_⟩
                  rcases List.mem_cons.1 hm with hm | hm
                  · exact hq hm
                  · exact h2 hm
              · refine Or.inr ⟨List.mem_cons_of_mem _ h1, ?_⟩
                rcases h2 with ⟨r1, hr1, hv⟩ | ⟨hf, hv⟩
                · exact Or.inl ⟨r1, (mem_removeP.1 hr1).1, hv⟩
                · exact Or.inr ⟨fun r1 hr1 => hf r1 (mem_removeP.2 ⟨hr1, hq⟩), hv⟩
            · rintro (⟨h1, h2⟩ | ⟨h1, h2⟩)
              · exact Or.inl ⟨mem_insertP.2 (Or.inr ⟨h1, hq⟩),
                  fun hm => h2 (List.mem_cons_of_mem _ hm)⟩
              · have h1a : q ∈ row := by
                  rcases List.mem_cons.1 h1 with hm | hm
                  · exact absurd hm hq
                  · exact hm
                refine Or.inr ⟨h1a, ?_⟩
                rcases h2 with ⟨r1, hr1, hv⟩ | ⟨hf, hv⟩
                · exact Or.inl ⟨r1, mem_removeP.2 ⟨hr1, hq⟩, hv⟩
                · exact Or.inr ⟨fun r1 hr1 => hf r1 (mem_removeP.1 hr1).1, hv⟩
      | none =>
          rw [mergeRowStep_none hl, ih _ _ hnd.2 hk q r]
          have hnone : ∀ r1 : Rect, (p0, r1) ∉ prevR := lookupP_eq_none.1 hl
          by_cases hq : q = p0
          · subst hq
            constructor
            · rintro (⟨h1, -⟩ | ⟨h1, -⟩)
              · rcases mem_insertP.1 h1 with ⟨-, hv⟩ | ⟨-, hne⟩
                · exact Or.inr ⟨List.mem_cons_self _ _, Or.inr ⟨hnone, hv⟩⟩
                · exact absurd rfl hne
              · exact absurd h1 hnd.1
            · rintro (⟨-, hc⟩ | ⟨-, hext | hfresh⟩)
              · exact absurd (List.mem_cons_self _ _) hc
              · obtain ⟨r1, hr1, -⟩ := hext
                exact absurd hr1 (hnone r1)
              · exact Or.inl ⟨mem_insertP.2 (Or.inl ⟨rfl, hfresh.2⟩), hnd.1⟩
          · constructor
            · rintro (⟨h1, h2⟩ | ⟨h1, h2⟩)
              · rcases mem_insertP.1 h1 with ⟨he, -⟩ | ⟨hc, -⟩
                · exact absurd he hq
                · refine Or.inl ⟨hc, fun hm => ?_⟩
                  rcases List.mem_cons.1 hm with hm | hm
                  · exact hq hm
                  · exact h2 hm
              · exact Or.inr ⟨List.mem_cons_of_mem _ h1, h2⟩
            · rintro (⟨h1, h2⟩ | ⟨h1, h2⟩)
              · exact Or.inl ⟨mem_insertP.2 (Or.inr ⟨h1, hq⟩),
                  fun hm => h2 (List.mem_cons_of_mem _ hm)⟩
              · have h1a : q ∈ row := by
                  rcases List.mem_cons.1 h1 with hm | hm
                  · exact absurd hm hq
                  · exact hm
                exact Or.inr ⟨h1a, h2⟩

theorem mergeRow_prev_mem (y : Int) (row : List Plate) (prev : List (Plate × Rect))
    (q : Plate) (r : Rect) :
    ((q, r) ∈ (mergeRow y row prev).2 ↔ (q, r) ∈ prev ∧ q ∉ row) :=
  mergeRow_fold_prev y row [] prev q r

theorem mergeRow_cur_mem (y : Int) (row : List Plate) (prev : List (Plate × Rect))
    (hrow : row.Nodup) (hk : (prev.map Prod.fst).Nodup) (q : Plate) (r : Rect) :
    ((q, r) ∈ (mergeRow y row prev).1 ↔
      q ∈ row ∧
        ((∃ r0, (q, r0) ∈ prev ∧ r = { r0 with top := r0.top + 1 }) ∨
          ((∀ r0, (q, r0) ∉ prev) ∧
            r = { left := q.left, right := q.right, top := y, bottom := y }))) := by
  have h := mergeRow_fold_cur y row [] prev hrow hk q r
  simp only [List.not_mem_nil, false_and, false_or] at h
  exact h

theorem mergeRow_keys (y : Int) (row : List Plate) (prev : List (Plate × Rect))
    (hk : (prev.map Prod.fst).Nodup) :
    (((mergeRow y row prev).1.map Prod.fst).Nodup ∧
      ((mergeRow y row prev).2.map Prod.fst).Nodup) :=
  mergeRow_fold_keys y row [] prev (by simp) hk

/-! ### The cross-row merge: semantic invariant and characterisation -/

/-- Semantic description of an in-progress rectangle carried into row `y0`:
its plate key spans exactly its columns, its top is the previous row, and its
bottom is the first row of an unbroken vertical run of its plate. -/
def CarriedAt (walls : Finset (Int × Int)) (width height y0 : Int)
    (p : Plate) (r : Rect) : Prop :=
  r.left = p.left ∧ r.right = p.right ∧ r.top = y0 - 1 ∧
  0 ≤ r.bottom ∧ r.bottom ≤ y0 - 1 ∧
  (∀ y, r.bottom ≤ y → y ≤ y0 - 1 → p ∈ stackRow walls width height y) ∧
  p ∉ stackRow walls width height (r.bottom - 1)

/-- Semantic invariant of `previous_rects` at the start of row `y0`. -/
def PrevFits (walls : Finset (Int × Int)) (width height y0 : Int)
    (prev : List (Plate × Rect)) : Prop :=
  (prev.map Prod.fst).Nodup ∧
  ∀ p r, ((p, r) ∈ prev ↔ CarriedAt walls width height y0 p r)

/-- Semantic description of a finished rectangle emitted at row `y0` or later:
a maximal vertical run of one plate, finished no earlier than row `y0`. -/
def RectFits (walls : Finset (Int × Int)) (width height y0 : Int) (r : Rect) : Prop :=
  0 ≤ r.bottom ∧ r.bottom ≤ r.top ∧ y0 - 1 ≤ r.top ∧ r.top ≤ height - 1 ∧
  (∀ y, r.bottom ≤ y → y ≤ r.top →
    ({ left := r.left, right := r.right } : Plate) ∈ stackRow walls width height y) ∧
  ({ left := r.left, right := r.right } : Plate) ∉ stackRow walls width height (r.bottom - 1) ∧
  ({ left := r.left, right := r.right } : Plate) ∉ stackRow walls width height (r.top + 1)

theorem max_interval_left_eq {Q : Int → Prop} {a1 b1 a2 b2 i : Int}
    (h1 : ∀ j, a1 ≤ j → j ≤ b1 → Q j) (h1l : ¬Q (a1 - 1))
    (h2 : ∀ j, a2 ≤ j → j ≤ b2 → Q j) (h2l : ¬Q (a2 - 1))
    (hi1 : a1 ≤ i) (hi2 : i ≤ b1) (hi3 : a2 ≤ i) (hi4 : i ≤ b2) : a1 = a2 := by
  by_contra hne
  rcases lt_or_gt_of_ne hne with h | h
  · exact h2l (h1 (a2 - 1) (by omega) (by omega))
  · exact h1l (h2 (a1 - 1) (by omega) (by omega))

/-- A plate key determines the carried rectangle uniquely. -/
theorem carriedAt_unique {walls : Finset (Int × Int)} {width height y0 : Int}
    {p : Plate} {r1 r2 : Rect}
    (h1 : CarriedAt walls width height y0 p r1)
    (h2 : CarriedAt walls width height y0 p r2) : r1 = r2 := by
  obtain ⟨a1, a2, a3, a4, a5, a6, a7⟩ := h1
  obtain ⟨b1, b2, b3, b4, b5, b6, b7⟩ := h2
  have hb : r1.bottom = r2.bottom :=
    max_interval_left_eq a6 a7 b6 b7 a5 le_rfl b5 le_rfl
  ext <;> omega

theorem mergeGo_char (walls : Finset (Int × Int)) (width height : Int) :
    ∀ (n : Nat) (y0 : Int) (prev : List (Plate × Rect)),
      0 ≤ y0 → y0 + n = height + 1 →
      PrevFits walls width height y0 prev →
      (∀ r, r ∈ mergeGo ((intsFrom y0 n).map (stackRow walls width height)) y0 prev ↔
        RectFits walls width height y0 r) ∧
      (mergeGo ((intsFrom y0 n).map (stackRow walls width height)) y0 prev).Nodup := by
  intro n
  induction n with
  | zero =>
      intro y0 prev hy0 hn hfit
      constructor
      · intro r
        simp only [intsFrom, List.map_nil, mergeGo, List.not_mem_nil, false_iff]
        rintro ⟨-, -, h3, h4, -, -, -⟩
        omega
      · simp only [intsFrom, List.map_nil, mergeGo]
        exact List.nodup_nil
  | succ n ih =>
      intro y0 prev hy0 hn hfit
      have hn' : (y0 + 1) + (n : Int) = height + 1 := by push_cast at hn; omega
      have hy0h : y0 ≤ height := by push_cast at hn; omega
      have hrownd : (stackRow walls width height y0).Nodup :=
        stackRow_nodup walls width height y0
      have hkeys := hfit.1
      have hunf : mergeGo ((intsFrom y0 (n + 1)).map (stackRow walls width height)) y0 prev
          = (mergeRow y0 (stackRow walls width height y0) prev).2.map Prod.snd ++
            mergeGo ((intsFrom (y0 + 1) n).map (stackRow walls width height)) (y0 + 1)
              (mergeRow y0 (stackRow walls width height y0) prev).1 := rfl
      -- the next-row invariant
      have hcurfits : PrevFits walls width height (y0 + 1)
          (mergeRow y0 (stackRow walls width height y0) prev).1 := by
        refine ⟨(mergeRow_keys y0 _ prev hkeys).1, ?_⟩
        intro p r
        rw [mergeRow_cur_mem y0 _ prev hrownd hkeys p r]
        constructor
        · rintro ⟨hprow, ⟨r0, hr0, hv⟩ | ⟨hfr, hv⟩⟩
          · obtain ⟨c1, c2, c3, c4, c5, c6, c7⟩ := (hfit.2 p r0).1 hr0
            subst hv
            refine ⟨c1, c2, by show r0.top + 1 = y0 + 1 - 1; omega, c4,
              by show r0.bottom ≤ y0 + 1 - 1; omega, ?_, c7⟩
            intro y hy1 hy2
            by_cases hyy : y = y0
            · rw [hyy]; exact hprow
            · refine c6 y hy1 ?_
              have hy2a : y ≤ y0 + 1 - 1 := hy2
              omega
          · subst hv
            refine ⟨rfl, rfl, by show y0 = y0 + 1 - 1; omega, by show (0 : Int) ≤ y0; omega,
              by show y0 ≤ y0 + 1 - 1; omega, ?_, ?_⟩
            · intro y hy1 hy2
              have hyy : y = y0 := by
                have hb : ({ left := p.left, right := p.right, top := y0, bottom := y0 } :
                    Rect).bottom = y0 := rfl
                omega
              rw [hyy]
              exact hprow
            · show p ∉ stackRow walls width height (y0 - 1)
              intro hmem
              by_cases hy0z : y0 = 0
              · rw [hy0z] at hmem
                have := stackRow_range hmem
                omega
              · obtain ⟨b, g1, g2, g3, g4⟩ :=
                  exists_run_bottom p (y0 - 1).toNat (y0 - 1) le_rfl hmem
                refine hfr { left := p.left, right := p.right, top := y0 - 1, bottom := b } ?_
                refine (hfit.2 p _).2 ?_
                exact ⟨rfl, rfl, rfl, g1, g2, g3, g4⟩
        · rintro ⟨d1, d2, d3, d4, d5, d6, d7⟩
          have hprow : p ∈ stackRow walls width height y0 :=
            d6 y0 (by omega) (by omega)
          refine ⟨hprow, ?_⟩
          by_cases hb : r.bottom ≤ y0 - 1
          · refine Or.inl ⟨{ r with top := y0 - 1 }, ?_, ?_⟩
            · refine (hfit.2 p _).2 ?_
              refine ⟨d1, d2, rfl, d4, hb, ?_, d7⟩
              intro y hy1 hy2
              exact d6 y hy1 (by omega)
            · ext
              · rfl
              · rfl
              · show r.top = y0 - 1 + 1
                omega
              · rfl
          · refine Or.inr ⟨?_, ?_⟩
            · intro r0 hr0
              obtain ⟨c1, c2, c3, c4, c5, c6, c7⟩ := (hfit.2 p r0).1 hr0
              have : p ∈ stackRow walls width height (y0 - 1) := c6 (y0 - 1) (by omega) le_rfl
              have hbb : r.bottom = y0 := by omega
              rw [hbb] at d7
              exact d7 this
            · ext
              · show r.left = p.left
                omega
              · show r.right = p.right
                omega
              · show r.top = y0
                omega
              · show r.bottom = y0
                omega
      -- the flushed rectangles of this row
      have hflush : ∀ r : Rect,
          (r ∈ (mergeRow y0 (stackRow walls width height y0) prev).2.map Prod.snd ↔
            (RectFits walls width height y0 r ∧ r.top = y0 - 1)) := by
        intro r
        rw [List.mem_map]
        constructor
        · rintro ⟨e, he, hv⟩
          subst hv
          have hm := (mergeRow_prev_mem y0 _ prev e.1 e.2).1 (by rw [Prod.mk.eta]; exact he)
          obtain ⟨c1, c2, c3, c4, c5, c6, c7⟩ := (hfit.2 e.1 e.2).1 hm.1
          have hm2 := hm.2
          have hpl : e.1 = ({ left := e.2.left, right := e.2.right } : Plate) := by
            ext
            · show e.1.left = e.2.left
              omega
            · show e.1.right = e.2.right
              omega
          rw [hpl] at c6 c7 hm2
          refine ⟨⟨c4, by omega, by omega, by omega, ?_, c7, ?_⟩, c3⟩
          · intro y hy1 hy2
            exact c6 y hy1 (by omega)
          · have he2 : e.2.top + 1 = y0 := by omega
            rw [he2]
            exact hm2
        · rintro ⟨⟨d1, d2, d3, d4, d5, d6, d7⟩, htop⟩
          refine ⟨({ left := r.left, right := r.right }, r), ?_, rfl⟩
          refine (mergeRow_prev_mem y0 _ prev _ r).2 ⟨?_, ?_⟩
          · refine (hfit.2 _ r).2 ?_
            refine ⟨rfl, rfl, htop, d1, by omega, ?_, d6⟩
            intro y hy1 hy2
            exact d5 y hy1 (by omega)
          · have hteq : r.top + 1 = y0 := by omega
            rw [← hteq]
            exact d7
      obtain ⟨ihmem, ihnd⟩ := ih (y0 + 1)
        (mergeRow y0 (stackRow walls width height y0) prev).1 (by omega) hn' hcurfits
      constructor
      · intro r
        rw [hunf, List.mem_append, hflush r, ihmem r]
        constructor
        · rintro (⟨h, -⟩ | h)
          · exact h
          · obtain ⟨d1, d2, d3, d4, d5, d6, d7⟩ := h
            exact ⟨d1, d2, by omega, d4, d5, d6, d7⟩
        · intro h
          obtain ⟨d1, d2, d3, d4, d5, d6, d7⟩ := h
          by_cases htop : r.top = y0 - 1
          · exact Or.inl ⟨⟨d1, d2, d3, d4, d5, d6, d7⟩, htop⟩
          · exact Or.inr ⟨d1, d2, by omega, d4, d5, d6, d7⟩
      · rw [hunf, List.nodup_append]
        refine ⟨?_, ihnd, ?_⟩
        · have hpk := (mergeRow_keys y0 (stackRow walls width height y0) prev hkeys).2
          refine List.Nodup.map_on ?_ (hpk.of_map Prod.fst)
          intro e1 he1 e2 he2 hv
          have hm1 := (mergeRow_prev_mem y0 _ prev e1.1 e1.2).1 (by rw [Prod.mk.eta]; exact he1)
          have hm2 := (mergeRow_prev_mem y0 _ prev e2.1 e2.2).1 (by rw [Prod.mk.eta]; exact he2)
          obtain ⟨c1, c2, -, -, -, -, -⟩ := (hfit.2 e1.1 e1.2).1 hm1.1
          obtain ⟨b1, b2, -, -, -, -, -⟩ := (hfit.2 e2.1 e2.2).1 hm2.1
          have hfst : e1.1 = e2.1 := by
            ext
            · show e1.1.left = e2.1.left
              rw [← c1, ← b1, hv]
            · show e1.1.right = e2.1.right
              rw [← c2, ← b2, hv]
          calc e1 = (e1.1, e1.2) := by rw [Prod.mk.eta]
            _ = (e2.1, e2.2) := by rw [hfst, hv]
            _ = e2 := by rw [Prod.mk.eta]
        · intro r hr1 hr2
          have h1 := (hflush r).1 hr1
          have h2 := (ihmem r).1 hr2
          obtain ⟨d1, d2, d3, -, -, -, -⟩ := h2
          omega

/-! ### Characterisation of the full pipeline -/

theorem wallRects_char (walls : Finset (Int × Int)) (width height : Int) (hh : 0 ≤ height) :
    (∀ r, r ∈ wallRects walls width height ↔ RectFits walls width height 0 r) ∧
    (wallRects walls width height).Nodup := by
  have hps := plateStack_sentinel walls width height hh
  have hfit : PrevFits walls width height 0 [] := by
    refine ⟨by simp, ?_⟩
    intro p r
    simp only [List.not_mem_nil, false_iff]
    rintro ⟨-, -, -, c4, c5, -, -⟩
    omega
  have h := mergeGo_char walls width height (height.toNat + 1) 0 [] le_rfl (by omega) hfit
  unfold wallRects
  rw [hps]
  exact h

/-- Characterisation of the emitted rectangles over in-grid wall sets: a
rectangle is emitted exactly when each of its rows carries the same maximal
run and that run pattern breaks just below and just above it. -/
def IsMaxRect (walls : Finset (Int × Int)) (width height : Int) (r : Rect) : Prop :=
  0 ≤ r.bottom ∧ r.bottom ≤ r.top ∧ r.top < height ∧
  (∀ y, r.bottom ≤ y → y ≤ r.top →
    IsMaxRun walls width y { left := r.left, right := r.right }) ∧
  ¬IsMaxRun walls width (r.bottom - 1) { left := r.left, right := r.right } ∧
  ¬IsMaxRun walls width (r.top + 1) { left := r.left, right := r.right }

theorem wallRects_mem_grid {walls : Finset (Int × Int)} {width height : Int}
    (hg : InGrid walls width height) (hh : 0 ≤ height) (r : Rect) :
    r ∈ wallRects walls width height ↔ IsMaxRect walls width height r := by
  rw [(wallRects_char walls width height hh).1 r]
  constructor
  · rintro ⟨d1, d2, d3, d4, d5, d6, d7⟩
    refine ⟨d1, d2, by omega, ?_, ?_, ?_⟩
    · intro y h1 h2
      exact (stackRow_mem hg y _).1 (d5 y h1 h2)
    · intro hc
      exact d6 ((stackRow_mem hg _ _).2 hc)
    · intro hc
      exact d7 ((stackRow_mem hg _ _).2 hc)
  · rintro ⟨d1, d2, d3, d4, d5, d6⟩
    refine ⟨d1, d2, by omega, by omega, ?_, ?_, ?_⟩
    · intro y h1 h2
      exact (stackRow_mem hg y _).2 (d4 y h1 h2)
    · intro hc
      exact d5 ((stackRow_mem hg _ _).1 hc)
    · intro hc
      exact d6 ((stackRow_mem hg _ _).1 hc)

/-- Every in-grid wall cell is covered by some emitted rectangle. -/
theorem covered_of_mem {walls : Finset (Int × Int)} {width height : Int}
    (hg : InGrid walls width height) (hh : 0 ≤ height) {c : Int × Int} (hc : c ∈ walls) :
    ∃ r, r ∈ wallRects walls width height ∧
      r.left ≤ c.1 ∧ c.1 ≤ r.right ∧ r.bottom ≤ c.2 ∧ c.2 ≤ r.top := by
  obtain ⟨hx1, hx2, hy1, hy2⟩ := hg c hc
  have hrow : ∀ x : Int, (x, c.2) ∈ walls → 0 ≤ x ∧ x < width :=
    fun x h => ⟨(hg _ h).1, (hg _ h).2.1⟩
  have hc2 : (c.1, c.2) ∈ walls := by rw [Prod.mk.eta]; exact hc
  obtain ⟨p, hp, hpl, hpr⟩ := exists_maxRun hrow hc2
  have hmem : p ∈ stackRow walls width height c.2 := (stackRow_mem hg c.2 p).2 hp
  obtain ⟨b, g1, g2, g3, g4⟩ := exists_run_bottom p c.2.toNat c.2 le_rfl hmem
  obtain ⟨t, t1, t2, t3, t4⟩ := exists_run_top p (height - c.2).toNat c.2 le_rfl hmem
  refine ⟨{ left := p.left, right := p.right, top := t, bottom := b }, ?_, hpl, hpr, g2, t1⟩
  refine ((wallRects_char walls width height hh).1 _).2 ?_
  refine ⟨g1, by show b ≤ t; omega, by show (0 : Int) - 1 ≤ t; omega,
    by show t ≤ height - 1; omega, ?_, g4, t4⟩
  intro y hyb hyt
  by_cases hyy : y ≤ c.2
  · exact g3 y hyb hyy
  · exact t3 y (by omega) hyt

/-- Two emitted rectangles sharing a cell are equal (value-level uniqueness). -/
theorem maxRect_unique {walls : Finset (Int × Int)} {width height : Int}
    {r1 r2 : Rect} {c : Int × Int}
    (h1 : IsMaxRect walls width height r1) (h2 : IsMaxRect walls width height r2)
    (hc1 : r1.left ≤ c.1) (hc2 : c.1 ≤ r1.right) (hc3 : r1.bottom ≤ c.2) (hc4 : c.2 ≤ r1.top)
    (hd1 : r2.left ≤ c.1) (hd2 : c.1 ≤ r2.right) (hd3 : r2.bottom ≤ c.2) (hd4 : c.2 ≤ r2.top) :
    r1 = r2 := by
  obtain ⟨a1, a2, a3, a4, a5, a6⟩ := h1
  obtain ⟨b1, b2, b3, b4, b5, b6⟩ := h2
  have hpeq : ({ left := r1.left, right := r1.right } : Plate) =
      ({ left := r2.left, right := r2.right } : Plate) :=
    isMaxRun_eq (a4 c.2 hc3 hc4) (b4 c.2 hd3 hd4) hc1 hc2 hd1 hd2
  have hleq : r1.left = r2.left := congrArg Plate.left hpeq
  have hreq : r1.right = r2.right := congrArg Plate.right hpeq
  rw [← hpeq] at b4 b5 b6
  obtain ⟨hbeq, hteq⟩ := max_interval_eq a4 a5 a6 b4 b5 b6 hc3 hc4 hd3 hd4
  ext <;> omega

/-- Rectangle bounds hold for all wall sets, in-grid or not. -/
theorem wallRects_bounds {walls : Finset (Int × Int)} {width height : Int}
    (hh : 0 ≤ height) {r : Rect} (hr : r ∈ wallRects walls width height) :
    0 ≤ r.left ∧ r.left ≤ r.right ∧ r.right ≤ width - 1 ∧
    0 ≤ r.bottom ∧ r.bottom ≤ r.top ∧ r.top ≤ height - 1 := by
  obtain ⟨d1, d2, d3, d4, d5, d6, d7⟩ := ((wallRects_char walls width height hh).1 r).1 hr
  have hb := stackRow_bounds (d5 r.bottom le_rfl d2)
  have hb1 : 0 ≤ r.left := hb.1
  have hb2 : r.left ≤ r.right := hb.2.1
  have hb3 : r.right < width := hb.2.2
  exact ⟨hb1, hb2, by omega, d1, d2, d4⟩

/-! ### Congruence: cells never read by the scan never matter -/

theorem rowPlates_congr {walls1 walls2 : Finset (Int × Int)} {width y : Int}
    (h : ∀ x : Int, 0 ≤ x → x ≤ width → ((x, y) ∈ walls1 ↔ (x, y) ∈ walls2)) :
    rowPlates walls1 width y = rowPlates walls2 width y := by
  have hs : ∀ (n : Nat) (a : Int) (st : Option Int × List Plate), 0 ≤ a →
      a + n ≤ width + 1 →
      (intsFrom a n).foldl (rowStep walls1 y) st =
        (intsFrom a n).foldl (rowStep walls2 y) st := by
    intro n
    induction n with
    | zero => intro a st h1 h2; rfl
    | succ n ih =>
        intro a st h1 h2
        have hcast : a + ((n : Int) + 1) ≤ width + 1 := by push_cast at h2; omega
        have hstep : rowStep walls1 y st a = rowStep walls2 y st a := by
          have hiff := h a h1 (by omega)
          by_cases hmem : (a, y) ∈ walls1
          · have hmem2 := hiff.1 hmem
            cases hst : st.1 with
            | none => rw [rowStep_wall_none hmem hst, rowStep_wall_none hmem2 hst]
            | some s => rw [rowStep_wall_some hmem hst, rowStep_wall_some hmem2 hst]
          · have hmem2 := fun hm => hmem (hiff.2 hm)
            cases hst : st.1 with
            | none => rw [rowStep_nowall_none hmem hst, rowStep_nowall_none hmem2 hst]
            | some s => rw [rowStep_nowall_some hmem hst, rowStep_nowall_some hmem2 hst]
        have e1 : (intsFrom a (n + 1)).foldl (rowStep walls1 y) st =
            (intsFrom (a + 1) n).foldl (rowStep walls1 y) (rowStep walls1 y st a) := rfl
        have e2 : (intsFrom a (n + 1)).foldl (rowStep walls2 y) st =
            (intsFrom (a + 1) n).foldl (rowStep walls2 y) (rowStep walls2 y st a) := rfl
        rw [e1, e2, hstep]
        exact ih (a + 1) _ (by omega) (by omega)
  unfold rowPlates intRange
  by_cases hw : 0 ≤ width + 1
  · rw [hs (width + 1).toNat 0 (none, []) le_rfl (by omega)]
  · have h0 : (width + 1).toNat = 0 := by omega
    rw [h0]
    rfl

theorem wallRects_congr {walls1 walls2 : Finset (Int × Int)} {width height : Int}
    (h : ∀ x y : Int, 0 ≤ x → x ≤ width → 0 ≤ y → y < height →
      ((x, y) ∈ walls1 ↔ (x, y) ∈ walls2)) :
    wallRects walls1 width height = wallRects walls2 width height := by
  unfold wallRects plateStack intRange
  have hrows : (intsFrom 0 height.toNat).map (fun y => rowPlates walls1 width y)
      = (intsFrom 0 height.toNat).map (fun y => rowPlates walls2 width y) := by
    apply List.map_congr_left
    intro y hy
    rw [intsFrom_mem] at hy
    exact rowPlates_congr (fun x hx1 hx2 => h x y hx1 hx2 (by omega) (by omega))
  rw [hrows]

/-! ### The claims -/

/-- A rectangle covers a grid cell (inclusive bounds, grid space). -/
def Covers (r : Rect) (c : Int × Int) : Prop :=
  r.left ≤ c.1 ∧ c.1 ≤ r.right ∧ r.bottom ≤ c.2 ∧ c.2 ≤ r.top

/-- C1: for every in-grid wall set, the union of the cell sets of the
rectangles emitted by the full pipeline (row-plate merging followed by
cross-row rectangle merging) equals the wall set exactly: every wall cell
lies in some emitted rectangle and every cell of every emitted rectangle is
a wall cell. -/
theorem c1_coverage (walls : Finset (Int × Int)) (width height : Int)
    (hg : InGrid walls width height) (hh : 0 ≤ height) :
    ∀ c : Int × Int, c ∈ walls ↔
      ∃ r, r ∈ wallRects walls width height ∧ Covers r c := by
  intro c
  constructor
  · intro hc
    obtain ⟨r, hr, h1, h2, h3, h4⟩ := covered_of_mem hg hh hc
    exact ⟨r, hr, h1, h2, h3, h4⟩
  · rintro ⟨r, hr, h1, h2, h3, h4⟩
    obtain ⟨-, -, -, d4, -, -⟩ := (wallRects_mem_grid hg hh r).1 hr
    have hrun := d4 c.2 h3 h4
    have hmem := hrun.2.2.2.1 c.1 h1 h2
    rwa [Prod.mk.eta] at hmem

/-- Witness for C1 at the 2-by-2 block scenario of the specification. -/
theorem c1_coverage_witness :
    InGrid {((0 : Int), (0 : Int)), (1, 0), (0, 1), (1, 1)} 2 2 ∧ (0 : Int) ≤ 2 ∧
    (∀ c : Int × Int,
      c ∈ ({((0 : Int), (0 : Int)), (1, 0), (0, 1), (1, 1)} : Finset (Int × Int)) ↔
      ∃ r, r ∈ wallRects {((0 : Int), (0 : Int)), (1, 0), (0, 1), (1, 1)} 2 2 ∧ Covers r c) :=
  ⟨by decide, by norm_num,
    c1_coverage {((0 : Int), (0 : Int)), (1, 0), (0, 1), (1, 1)} 2 2 (by decide) (by norm_num)⟩

/-- C2: no two distinct rectangles emitted by the pipeline overlap — any grid
cell is contained in at most one emitted rectangle. -/
theorem c2_disjointness (walls : Finset (Int × Int)) (width height : Int)
    (hg : InGrid walls width height) (hh : 0 ≤ height) :
    (wallRects walls width height).Pairwise
      (fun r1 r2 => ∀ c : Int × Int, ¬(Covers r1 c ∧ Covers r2 c)) := by
  have hnd : (wallRects walls width height).Pairwise (fun r1 r2 => r1 ≠ r2) :=
    (wallRects_char walls width height hh).2
  rw [List.pairwise_iff_forall_sublist]
  intro r1 r2 hsub
  have hne : r1 ≠ r2 := List.pairwise_iff_forall_sublist.1 hnd hsub
  have h1 : r1 ∈ wallRects walls width height := hsub.subset (by simp)
  have h2 : r2 ∈ wallRects walls width height := hsub.subset (by simp)
  rintro c ⟨⟨e1, e2, e3, e4⟩, f1, f2, f3, f4⟩
  exact hne (maxRect_unique ((wallRects_mem_grid hg hh r1).1 h1)
    ((wallRects_mem_grid hg hh r2).1 h2) e1 e2 e3 e4 f1 f2 f3 f4)

/-- Witness for C2 at the two-isolated-cells scenario of the specification. -/
theorem c2_disjointness_witness :
    InGrid {((0 : Int), (0 : Int)), (2, 0)} 3 1 ∧ (0 : Int) ≤ 1 ∧
    (wallRects {((0 : Int), (0 : Int)), (2, 0)} 3 1).Pairwise
      (fun r1 r2 => ∀ c : Int × Int, ¬(Covers r1 c ∧ Covers r2 c)) :=
  ⟨by decide, by norm_num,
    c2_disjointness {((0 : Int), (0 : Int)), (2, 0)} 3 1 (by decide) (by norm_num)⟩

/-- C3 counterexample: on the in-grid wall set `{(1,0), (0,1), (1,1), (2,1)}`
with width 3 and height 2, the pipeline emits the rectangle
`{left 1, right 1, top 0, bottom 0}`, which does not touch the top edge
(its top row is 0, the topmost row is 1) and whose one-column upward
extension cell `(1, 1)` is a wall — so this rectangle can be extended upward
without including any non-wall cell and without crossing the level boundary,
refuting the claimed four-direction maximality. -/
theorem c3_counterexample :
    (({ left := 1, right := 1, top := 0, bottom := 0 } : Rect) ∈
      wallRects {((1 : Int), (0 : Int)), (0, 1), (1, 1), (2, 1)} 3 2) ∧
    InGrid {((1 : Int), (0 : Int)), (0, 1), (1, 1), (2, 1)} 3 2 ∧
    ¬((0 : Int) = 2 - 1 ∨
      ∃ x : Int, 1 ≤ x ∧ x ≤ 1 ∧
        ((x, (1 : Int)) ∉ ({((1 : Int), (0 : Int)), (0, 1), (1, 1), (2, 1)} :
          Finset (Int × Int)))) := by
  refine ⟨by decide, by decide, ?_⟩
  rintro (h | ⟨x, h1, h2, h3⟩)
  · exact absurd h (by decide)
  · have hx : x = 1 := le_antisymm h2 h1
    subst hx
    exact h3 (by decide)

/-- C3 (amended): every emitted rectangle is maximal in the following sense:
extending it one column left or right includes a non-wall cell or crosses the
boundary, and extending it one row up or down includes a non-wall cell,
crosses the boundary, or includes a cell already covered by a different
emitted rectangle. -/
theorem c3_maximality_amended (walls : Finset (Int × Int)) (width height : Int)
    (hg : InGrid walls width height) (hh : 0 ≤ height) :
    ∀ r ∈ wallRects walls width height,
      (r.left = 0 ∨ ∃ y, r.bottom ≤ y ∧ y ≤ r.top ∧ (r.left - 1, y) ∉ walls) ∧
      (r.right = width - 1 ∨ ∃ y, r.bottom ≤ y ∧ y ≤ r.top ∧ (r.right + 1, y) ∉ walls) ∧
      (r.bottom = 0 ∨ (∃ x, r.left ≤ x ∧ x ≤ r.right ∧ (x, r.bottom - 1) ∉ walls) ∨
        (∃ x r2, r.left ≤ x ∧ x ≤ r.right ∧ r2 ∈ wallRects walls width height ∧
          r2 ≠ r ∧ Covers r2 (x, r.bottom - 1))) ∧
      (r.top = height - 1 ∨ (∃ x, r.left ≤ x ∧ x ≤ r.right ∧ (x, r.top + 1) ∉ walls) ∨
        (∃ x r2, r.left ≤ x ∧ x ≤ r.right ∧ r2 ∈ wallRects walls width height ∧
          r2 ≠ r ∧ Covers r2 (x, r.top + 1))) := by
  intro r hr
  obtain ⟨a1, a2, a3, a4, a5, a6⟩ := (wallRects_mem_grid hg hh r).1 hr
  have hrun := a4 r.bottom le_rfl a2
  have hlr : r.left ≤ r.right := hrun.2.1
  refine ⟨Or.inr ⟨r.bottom, le_rfl, a2, hrun.2.2.2.2.1⟩,
    Or.inr ⟨r.bottom, le_rfl, a2, hrun.2.2.2.2.2⟩, ?_, ?_⟩
  · by_cases hbz : r.bottom = 0
    · exact Or.inl hbz
    · by_cases hall : ∀ x, r.left ≤ x → x ≤ r.right → (x, r.bottom - 1) ∈ walls
      · refine Or.inr (Or.inr ?_)
        have hcell : (r.left, r.bottom - 1) ∈ walls := hall r.left le_rfl hlr
        obtain ⟨r2, hr2, g1, g2, g3, g4⟩ := covered_of_mem hg hh hcell
        have g3a : r2.bottom ≤ r.bottom - 1 := g3
        refine ⟨r.left, r2, le_rfl, hlr, hr2, ?_, g1, g2, g3, g4⟩
        intro he
        rw [he] at g3a
        omega
      · push_neg at hall
        obtain ⟨x, hx1, hx2, hx3⟩ := hall
        exact Or.inr (Or.inl ⟨x, hx1, hx2, hx3⟩)
  · by_cases htz : r.top = height - 1
    · exact Or.inl htz
    · by_cases hall : ∀ x, r.left ≤ x → x ≤ r.right → (x, r.top + 1) ∈ walls
      · refine Or.inr (Or.inr ?_)
        have hcell : (r.left, r.top + 1) ∈ walls := hall r.left le_rfl hlr
        obtain ⟨r2, hr2, g1, g2, g3, g4⟩ := covered_of_mem hg hh hcell
        have g4a : r.top + 1 ≤ r2.top := g4
        refine ⟨r.left, r2, le_rfl, hlr, hr2, ?_, g1, g2, g3, g4⟩
        intro he
        rw [he] at g4a
        omega
      · push_neg at hall
        obtain ⟨x, hx1, hx2, hx3⟩ := hall
        exact Or.inr (Or.inl ⟨x, hx1, hx2, hx3⟩)

/-- Witness for the amended C3 at the counterexample wall set. -/
theorem c3_maximality_amended_witness :
    InGrid {((1 : Int), (0 : Int)), (0, 1), (1, 1), (2, 1)} 3 2 ∧ (0 : Int) ≤ 2 ∧
    (∀ r ∈ wallRects {((1 : Int), (0 : Int)), (0, 1), (1, 1), (2, 1)} 3 2,
      (r.left = 0 ∨ ∃ y, r.bottom ≤ y ∧ y ≤ r.top ∧
        ((r.left - 1, y) ∉ ({((1 : Int), (0 : Int)), (0, 1), (1, 1), (2, 1)} :
          Finset (Int × Int)))) ∧
      (r.right = 3 - 1 ∨ ∃ y, r.bottom ≤ y ∧ y ≤ r.top ∧
        ((r.right + 1, y) ∉ ({((1 : Int), (0 : Int)), (0, 1), (1, 1), (2, 1)} :
          Finset (Int × Int)))) ∧
      (r.bottom = 0 ∨ (∃ x, r.left ≤ x ∧ x ≤ r.right ∧
        ((x, r.bottom - 1) ∉ ({((1 : Int), (0 : Int)), (0, 1), (1, 1), (2, 1)} :
          Finset (Int × Int)))) ∨
        (∃ x r2, r.left ≤ x ∧ x ≤ r.right ∧
          r2 ∈ wallRects {((1 : Int), (0 : Int)), (0, 1), (1, 1), (2, 1)} 3 2 ∧
          r2 ≠ r ∧ Covers r2 (x, r.bottom - 1))) ∧
      (r.top = 2 - 1 ∨ (∃ x, r.left ≤ x ∧ x ≤ r.right ∧
        ((x, r.top + 1) ∉ ({((1 : Int), (0 : Int)), (0, 1), (1, 1), (2, 1)} :
          Finset (Int × Int)))) ∨
        (∃ x r2, r.left ≤ x ∧ x ≤ r.right ∧
          r2 ∈ wallRects {((1 : Int), (0 : Int)), (0, 1), (1, 1), (2, 1)} 3 2 ∧
          r2 ≠ r ∧ Covers r2 (x, r.top + 1)))) :=
  ⟨by decide, by norm_num,
    c3_maximality_amended {((1 : Int), (0 : Int)), (0, 1), (1, 1), (2, 1)} 3 2
      (by decide) (by norm_num)⟩

/-- C4: in the cross-row merge a plate's identity is solely its (left, right)
pair: a plate of the current row equal to a key carried in `previous_rects`
extends that in-progress rectangle by incrementing its top bound; an
in-progress rectangle whose key is absent from the current row is moved to
the output at that row; and the empty sentinel row appended after the real
rows flushes every rectangle carried into it. -/
theorem c4_merge_step (walls : Finset (Int × Int)) (width height y : Int)
    (row : List Plate) (rest : List (List Plate)) (prev : List (Plate × Rect))
    (p : Plate) (r0 : Rect) (hrow : row.Nodup) (hkeys : (prev.map Prod.fst).Nodup)
    (hmem : (p, r0) ∈ prev) :
    (p ∈ row → (p, { r0 with top := r0.top + 1 }) ∈ (mergeRow y row prev).1) ∧
    (p ∉ row → r0 ∈ mergeGo (row :: rest) y prev) ∧
    (mergeGo ([] :: rest) y prev = prev.map Prod.snd ++ mergeGo rest (y + 1) []) ∧
    ((plateStack walls width height ++ [[]]).getLast? = some []) := by
  refine ⟨?_, ?_, rfl, List.getLast?_concat _⟩
  · intro hp
    exact (mergeRow_cur_mem y row prev hrow hkeys p _).2 ⟨hp, Or.inl ⟨r0, hmem, rfl⟩⟩
  · intro hp
    have hm : (p, r0) ∈ (mergeRow y row prev).2 :=
      (mergeRow_prev_mem y row prev p r0).2 ⟨hmem, hp⟩
    have hout : r0 ∈ (mergeRow y row prev).2.map Prod.snd :=
      List.mem_map.2 ⟨(p, r0), hm, rfl⟩
    exact List.mem_append_left _ hout

/-- Witness for C4 at a one-plate row and a one-binding carried map. -/
theorem c4_merge_step_witness :
    ([({ left := 0, right := 0 } : Plate)].Nodup ∧
      (([(({ left := 0, right := 0 } : Plate),
        ({ left := 0, right := 0, top := 0, bottom := 0 } : Rect))].map Prod.fst).Nodup) ∧
      ((({ left := 0, right := 0 } : Plate),
        ({ left := 0, right := 0, top := 0, bottom := 0 } : Rect)) ∈
        [(({ left := 0, right := 0 } : Plate),
          ({ left := 0, right := 0, top := 0, bottom := 0 } : Rect))])) ∧
    (({ left := 0, right := 0 } : Plate) ∈ [({ left := 0, right := 0 } : Plate)] →
      ((({ left := 0, right := 0 } : Plate),
        ({ left := 0, right := 0, top := 1, bottom := 0 } : Rect)) ∈
        (mergeRow 1 [({ left := 0, right := 0 } : Plate)]
          [(({ left := 0, right := 0 } : Plate),
            ({ left := 0, right := 0, top := 0, bottom := 0 } : Rect))]).1)) :=
  ⟨⟨by decide, by decide, by decide⟩,
    (c4_merge_step ∅ 1 1 1 [{ left := 0, right := 0 }] []
      [({ left := 0, right := 0 }, { left := 0, right := 0, top := 0, bottom := 0 })]
      { left := 0, right := 0 } { left := 0, right := 0, top := 0, bottom := 0 }
      (by decide) (by decide) (by decide)).1⟩

/-- C5: for an in-grid wall set and a real row, the row-plate stage produces
exactly the maximal horizontal runs of wall cells of that row as inclusive
intervals; in particular a run touching the rightmost real column is closed
by the sentinel scan column and yields a plate with right = width - 1. -/
theorem c5_row_plates (walls : Finset (Int × Int)) (width height y : Int)
    (hg : InGrid walls width height) (hy1 : 0 ≤ y) (hy2 : y < height) :
    ∀ p : Plate, p ∈ rowPlates walls width y ↔ IsMaxRun walls width y p :=
  fun p => rowPlates_mem (fun x hx => ⟨(hg _ hx).1, (hg _ hx).2.1⟩) p

/-- Witness for C5 at a row whose run touches the rightmost column. -/
theorem c5_row_plates_witness :
    InGrid {((0 : Int), (0 : Int)), (1, 0)} 2 1 ∧ (0 : Int) ≤ 0 ∧ (0 : Int) < 1 ∧
    (∀ p : Plate, p ∈ rowPlates {((0 : Int), (0 : Int)), (1, 0)} 2 0 ↔
      IsMaxRun {((0 : Int), (0 : Int)), (1, 0)} 2 0 p) :=
  ⟨by decide, by norm_num, by norm_num,
    c5_row_plates {((0 : Int), (0 : Int)), (1, 0)} 2 1 0 (by decide) (by norm_num)
      (by norm_num)⟩

/-- C6: every emitted rectangle is horizontally maximal — for each of its rows
its column interval is a plate of that row, any plate of that row meeting
the rectangle's columns is that very plate, and widening the row slice by
one column on either side covers a non-wall cell. -/
theorem c6_row_slices (walls : Finset (Int × Int)) (width height : Int)
    (hg : InGrid walls width height) (hh : 0 ≤ height) :
    ∀ r ∈ wallRects walls width height, ∀ y, r.bottom ≤ y → y ≤ r.top →
      (({ left := r.left, right := r.right } : Plate) ∈ rowPlates walls width y ∧
      (∀ p2, p2 ∈ rowPlates walls width y →
        (∃ x, p2.left ≤ x ∧ x ≤ p2.right ∧ r.left ≤ x ∧ x ≤ r.right) →
        p2 = { left := r.left, right := r.right }) ∧
      (r.left - 1, y) ∉ walls ∧ (r.right + 1, y) ∉ walls) := by
  intro r hr y h1 h2
  obtain ⟨-, -, -, a4, -, -⟩ := (wallRects_mem_grid hg hh r).1 hr
  have hrun := a4 y h1 h2
  have hrow : ∀ x : Int, (x, y) ∈ walls → 0 ≤ x ∧ x < width :=
    fun x h => ⟨(hg _ h).1, (hg _ h).2.1⟩
  refine ⟨(rowPlates_mem hrow _).2 hrun, ?_, hrun.2.2.2.2.1, hrun.2.2.2.2.2⟩
  rintro p2 hp2 ⟨x, e1, e2, e3, e4⟩
  exact isMaxRun_eq ((rowPlates_mem hrow p2).1 hp2) hrun e1 e2 e3 e4

/-- Witness for C6 at the vertical-stack scenario of the specification. -/
theorem c6_row_slices_witness :
    InGrid {((0 : Int), (0 : Int)), (0, 1)} 1 2 ∧ (0 : Int) ≤ 2 ∧
    (∀ r ∈ wallRects {((0 : Int), (0 : Int)), (0, 1)} 1 2, ∀ y, r.bottom ≤ y → y ≤ r.top →
      (({ left := r.left, right := r.right } : Plate) ∈
        rowPlates {((0 : Int), (0 : Int)), (0, 1)} 1 y ∧
      (∀ p2, p2 ∈ rowPlates {((0 : Int), (0 : Int)), (0, 1)} 1 y →
        (∃ x, p2.left ≤ x ∧ x ≤ p2.right ∧ r.left ≤ x ∧ x ≤ r.right) →
        p2 = { left := r.left, right := r.right }) ∧
      ((r.left - 1, y) ∉ ({((0 : Int), (0 : Int)), (0, 1)} : Finset (Int × Int))) ∧
      ((r.right + 1, y) ∉ ({((0 : Int), (0 : Int)), (0, 1)} : Finset (Int × Int))))) :=
  ⟨by decide, by norm_num,
    c6_row_slices {((0 : Int), (0 : Int)), (0, 1)} 1 2 (by decide) (by norm_num)⟩

/-- C7: the collider emitted for a finished rectangle has half-extents
`((right-left+1)*grid_size/2, (top-bottom+1)*grid_size/2)`, center
`((left+right+1)*grid_size/2, (bottom+top+1)*grid_size/2)`, is a static
(hence non-rotating) body, and is parented to the owning level entity. -/
theorem c7_collider (gridSize : Int) (levelEntity : Nat) (rects : List Rect) (r : Rect)
    (hr : r ∈ rects) :
    mkCollider gridSize levelEntity r ∈ emitColliders gridSize levelEntity rects ∧
    (mkCollider gridSize levelEntity r).halfExtents =
      (((r.right : Rat) - (r.left : Rat) + 1) * (gridSize : Rat) / 2,
        ((r.top : Rat) - (r.bottom : Rat) + 1) * (gridSize : Rat) / 2) ∧
    (mkCollider gridSize levelEntity r).center =
      (((r.left : Rat) + (r.right : Rat) + 1) * (gridSize : Rat) / 2,
        ((r.bottom : Rat) + (r.top : Rat) + 1) * (gridSize : Rat) / 2) ∧
    (mkCollider gridSize levelEntity r).isStatic = true ∧
    (mkCollider gridSize levelEntity r).parent = levelEntity := by
  refine ⟨List.mem_map.2 ⟨r, hr, rfl⟩, rfl, ?_, rfl, rfl⟩
  show (((r.left + r.right + 1 : Int) : Rat) * (gridSize : Rat) / 2,
    ((r.bottom + r.top + 1 : Int) : Rat) * (gridSize : Rat) / 2) = _
  rw [Prod.mk.injEq]
  constructor
  · push_cast
    ring
  · push_cast
    ring

/-- Witness for C7 at a concrete rectangle and cell size. -/
theorem c7_collider_witness :
    (({ left := 0, right := 2, top := 1, bottom := 0 } : Rect) ∈
      [({ left := 0, right := 2, top := 1, bottom := 0 } : Rect)]) ∧
    (mkCollider 16 3 { left := 0, right := 2, top := 1, bottom := 0 } ∈
      emitColliders 16 3 [{ left := 0, right := 2, top := 1, bottom := 0 }]) :=
  ⟨by decide,
    (c7_collider 16 3 [{ left := 0, right := 2, top := 1, bottom := 0 }]
      { left := 0, right := 2, top := 1, bottom := 0 } (by decide)).1⟩

theorem processLevel_error {asset : Option LdtkLevel} {w : Finset (Int × Int)} {e : Nat}
    (hbad : asset = none ∨ ∃ lvl, asset = some lvl ∧
      (lvl.layer_instances = none ∨ lvl.layer_instances = some [])) :
    ∃ msg, processLevel asset w e = Except.error msg := by
  rcases hbad with h | ⟨lvl, hl, h2⟩
  · subst h
    exact ⟨"Level should be loaded by this point", rfl⟩
  · subst hl
    rcases h2 with h2 | h2
    · refine ⟨"Level asset should have layers", ?_⟩
      simp only [processLevel]
      rw [h2]
    · refine ⟨"index out of bounds", ?_⟩
      simp only [processLevel]
      rw [h2]

theorem processLevels_error {m : Nat → Finset (Int × Int)} :
    ∀ (levels : List (Nat × Option LdtkLevel)) (e : Nat) (asset : Option LdtkLevel),
      (e, asset) ∈ levels → m e ≠ ∅ →
      (asset = none ∨ ∃ lvl, asset = some lvl ∧
        (lvl.layer_instances = none ∨ lvl.layer_instances = some [])) →
      ∃ msg, processLevels m levels = Except.error msg := by
  intro levels
  induction levels with
  | nil =>
      intro e asset h
      simp at h
  | cons hd rest ih =>
      intro e asset hmem hne hbad
      obtain ⟨e0, a0⟩ := hd
      rcases List.mem_cons.1 hmem with he | hm
      · rw [Prod.mk.injEq] at he
        obtain ⟨he1, he2⟩ := he
        subst he1
        subst he2
        obtain ⟨msg, hmsg⟩ := @processLevel_error asset (m e) e hbad
        refine ⟨msg, ?_⟩
        simp only [processLevels]
        rw [if_neg hne, hmsg]
      · obtain ⟨msg, hmsg⟩ := ih e asset hm hne hbad
        by_cases hm0 : m e0 = ∅
        · refine ⟨msg, ?_⟩
          simp only [processLevels]
          rw [if_pos hm0, hmsg]
        · simp only [processLevels]
          rw [if_neg hm0]
          cases hpl : processLevel a0 (m e0) e0 with
          | error msg2 => exact ⟨msg2, rfl⟩
          | ok cs =>
              refine ⟨msg, ?_⟩
              rw [hmsg]

/-- C8: if some level is known to have wall tiles (its wall set is non-empty)
but its level asset is not loaded, or the level's layer-instance list is
absent or empty, the pass fails with an unrecoverable panic (modelled as
`Except.error`) rather than skipping or retrying that level. -/
theorem c8_panic (tiles : List ((Int × Int) × Nat)) (parentOf : Nat → Option Nat)
    (levels : List (Nat × Option LdtkLevel)) (e : Nat) (asset : Option LdtkLevel)
    (hne : tiles ≠ []) (hmem : (e, asset) ∈ levels)
    (hwalls : extract parentOf tiles e ≠ ∅)
    (hbad : asset = none ∨ ∃ lvl, asset = some lvl ∧
      (lvl.layer_instances = none ∨ lvl.layer_instances = some [])) :
    ∃ msg, spawn_wall_collision tiles parentOf levels = Except.error msg := by
  unfold spawn_wall_collision
  rw [if_neg (by simpa using hne)]
  exact processLevels_error levels e asset hmem hwalls hbad

/-- Witness for C8: one wall tile resolving to level 7 whose asset is absent. -/
theorem c8_panic_witness :
    (([(((0 : Int), (0 : Int)), 5)] : List ((Int × Int) × Nat)) ≠ [] ∧
      ((7, (none : Option LdtkLevel)) ∈ [((7 : Nat), (none : Option LdtkLevel))]) ∧
      extract (fun n => if n = 5 then some 7 else none) [(((0 : Int), (0 : Int)), 5)] 7 ≠ ∅) ∧
    (∃ msg, spawn_wall_collision [(((0 : Int), (0 : Int)), 5)]
      (fun n => if n = 5 then some 7 else none)
      [((7 : Nat), (none : Option LdtkLevel))] = Except.error msg) :=
  ⟨⟨by decide, by decide, by decide⟩,
    c8_panic [(((0 : Int), (0 : Int)), 5)] (fun n => if n = 5 then some 7 else none)
      [((7 : Nat), (none : Option LdtkLevel))] 7 none (by decide) (by decide) (by decide)
      (Or.inl rfl)⟩

theorem processLevels_of_empty {m : Nat → Finset (Int × Int)} (hm : ∀ e, m e = ∅) :
    ∀ levels, processLevels m levels = Except.ok [] := by
  intro levels
  induction levels with
  | nil => rfl
  | cons hd rest ih =>
      obtain ⟨e0, a0⟩ := hd
      simp only [processLevels]
      rw [if_pos (hm e0), ih]

/-- C9: a newly added wall tile whose grandparent (tile to chunk to level)
lookup fails is silently skipped — it joins no level's wall set, the whole
pass produces exactly the output it would produce without that tile, and no
error is raised; all other tiles of the pass are processed unaffected. -/
theorem c9_orphan_skip (pre post : List ((Int × Int) × Nat)) (t : (Int × Int) × Nat)
    (parentOf : Nat → Option Nat) (levels : List (Nat × Option LdtkLevel))
    (horphan : parentOf t.2 = none) :
    (∀ e, extract parentOf (pre ++ t :: post) e = extract parentOf (pre ++ post) e) ∧
    spawn_wall_collision (pre ++ t :: post) parentOf levels =
      spawn_wall_collision (pre ++ post) parentOf levels := by
  have hstep : ∀ m : Nat → Finset (Int × Int), extractStep parentOf m t = m := by
    intro m
    unfold extractStep
    rw [horphan]
  have hex : extract parentOf (pre ++ t :: post) = extract parentOf (pre ++ post) := by
    unfold extract
    rw [List.foldl_append, List.foldl_append, List.foldl_cons, hstep]
  refine ⟨fun e => by rw [hex], ?_⟩
  unfold spawn_wall_collision
  have hne1 : ¬((pre ++ t :: post).isEmpty = true) := by simp
  rw [if_neg hne1]
  by_cases hpp : (pre ++ post).isEmpty = true
  · rw [if_pos hpp]
    have hnil : pre ++ post = [] := by simpa using hpp
    rw [hex]
    refine processLevels_of_empty ?_ levels
    intro e
    rw [hnil]
    rfl
  · rw [if_neg hpp, hex]

/-- Witness for C9: an orphan tile between two resolvable tiles. -/
theorem c9_orphan_skip_witness :
    ((fun n => if n = 5 then some 7 else none) ((((1 : Int), (1 : Int)), 9) :
        (Int × Int) × Nat).2 = none) ∧
    (∀ e, extract (fun n => if n = 5 then some 7 else none)
        ([(((0 : Int), (0 : Int)), 5)] ++ (((1 : Int), (1 : Int)), 9) ::
          [(((1 : Int), (0 : Int)), 5)]) e =
      extract (fun n => if n = 5 then some 7 else none)
        ([(((0 : Int), (0 : Int)), 5)] ++ [(((1 : Int), (0 : Int)), 5)]) e) :=
  ⟨by decide,
    (c9_orphan_skip [(((0 : Int), (0 : Int)), 5)] [(((1 : Int), (0 : Int)), 5)]
      (((1 : Int), (1 : Int)), 9) (fun n => if n = 5 then some 7 else none) []
      (by decide)).1⟩

/-- C10 counterexample: on a 1-by-1 grid, the wall set `{(0,0), (1,0)}`
contains the out-of-bounds coordinate `(1,0)` (x = width).  The claim says
such a coordinate is ignored, but the pipeline emits no rectangle at all for
this set, while it emits the unit rectangle for `{(0,0)}`: the sentinel scan
column x = width reads the out-of-bounds cell, never closes the row's run,
and the in-grid wall `(0,0)` loses its collider — the coordinate is not
ignored. -/
theorem c10_counterexample :
    (((1 : Int), (0 : Int)) ∈ ({((0 : Int), (0 : Int)), (1, 0)} : Finset (Int × Int))) ∧
    ¬((1 : Int) < 1) ∧
    wallRects {((0 : Int), (0 : Int)), (1, 0)} 1 1 = [] ∧
    wallRects {((0 : Int), (0 : Int))} 1 1 =
      [{ left := 0, right := 0, top := 0, bottom := 0 }] := by
  refine ⟨by decide, by norm_num, by decide, by decide⟩

/-- C10 (amended): a wall coordinate with x < 0, x > width, y < 0 or
y ≥ height never affects the pipeline (a coordinate with x = width is read
by the sentinel scan column and can suppress closing the rightmost run, so
it is excluded here), and for every wall set each emitted rectangle satisfies
0 ≤ left ≤ right ≤ width-1 and 0 ≤ bottom ≤ top ≤ height-1, so no emitted
plate, rectangle, or collider ever covers an out-of-bounds coordinate. -/
theorem c10_bounds_amended (walls : Finset (Int × Int)) (width height : Int)
    (c : Int × Int) (hh : 0 ≤ height)
    (hc : c.1 < 0 ∨ c.1 > width ∨ c.2 < 0 ∨ c.2 ≥ height) :
    (wallRects (insert c walls) width height = wallRects walls width height) ∧
    (∀ r ∈ wallRects walls width height,
      0 ≤ r.left ∧ r.left ≤ r.right ∧ r.right ≤ width - 1 ∧
      0 ≤ r.bottom ∧ r.bottom ≤ r.top ∧ r.top ≤ height - 1) := by
  constructor
  · apply wallRects_congr
    intro x y hx1 hx2 hy1 hy2
    rw [Finset.mem_insert]
    constructor
    · rintro (he | hm)
      · exfalso
        have h1 : c.1 = x := by rw [← he]
        have h2 : c.2 = y := by rw [← he]
        omega
      · exact hm
    · exact fun hm => Or.inr hm
  · intro r hr
    exact wallRects_bounds hh hr

/-- Witness for the amended C10 at a coordinate left of the grid. -/
theorem c10_bounds_amended_witness :
    ((0 : Int) ≤ 2 ∧ (-1 : Int) < 0) ∧
    (wallRects (insert ((-1 : Int), (0 : Int)) {((0 : Int), (0 : Int))}) 2 2 =
      wallRects {((0 : Int), (0 : Int))} 2 2) :=
  ⟨⟨by norm_num, by norm_num⟩,
    (c10_bounds_amended {((0 : Int), (0 : Int))} 2 2 ((-1 : Int), (0 : Int))
      (by norm_num) (Or.inl (by norm_num))).1⟩

end UnfairCollision
